import Mathlib

/-!
# fresa ecs: index-version ids, component pools and the scene

A shallow embedding of `src/core/ecs.h`, and of `factorial`, `binomial`, the
matrix operations `dot`, `transpose` and `identity`, `pow` and `smoothstep` of
`src/types/fresa_math.h`.

* Machine integers are natural numbers with explicit truncation: `Index` and
  `Version` are `ui16` (values modulo `65536`), `detail::ID` is `ui32`.
* `engine_config.ecs_page_size()` is declared outside `ecs.h`; it is the
  parameter `ps` of every definition that needs it.
* A `std::unordered_map` is an association list, looked up by its first
  matching key.
* An operation that would throw (`std::vector::at` out of range) or
  dereference a null pointer or call `back()`/`front()` on an empty container
  returns `none`.
-/

namespace Fresa

/-! ## index-version id -/

/-- Embeds `index(id)`: the low 16 bits of an id, `Index(id.value)`. -/
def index (i : Nat) : Nat := i % 65536

/-- Embeds `version(id)`: the high 16 bits of an id, `Version((id >> 16).value)`. -/
def version (i : Nat) : Nat := (i >>> 16) % 65536

/-- Embeds `id(i, v)`: `(ID(v) << 16) | ID(i)`; both arguments are converted to
their 16 bit types first, the shift is a 32 bit shift. -/
def id (i v : Nat) : Nat := (((v % 65536) <<< 16) % 4294967296) ||| (i % 65536)

/-- The sentinel `invalid_id = id(-1, 0)`; `Index(-1)` is `0xFFFF`. -/
def invalid_id : Nat := id 65535 0

/-! ## component pool -/

/-- The sparse map: page number to a page of `ecs_page_size` sparse ids. A page
(a `std::array` of fixed size) is a function of the offset; it is only ever
read and written at offsets `pos % ps`. -/
abbrev Sparse := List (Nat × (Nat → Nat))

/-- Embeds `sparse.at(page)` guarded by `sparse.contains(page)`: the page stored under
a key, if there is one. -/
def Sparse.find : Sparse → Nat → Option (Nat → Nat)
  | [], _ => none
  | (k, arr) :: rest, page => if k = page then some arr else Sparse.find rest page

/-- Embeds `sparse.contains(page)`. -/
def Sparse.contains (sparse : Sparse) (page : Nat) : Bool :=
  (Sparse.find sparse page).isSome

/-- Assignment through the pointer returned by `sparse_at(pos)`:
`sparse.at(pos / ps).at(pos % ps) = val`. -/
def Sparse.store (ps : Nat) : Sparse → Nat → Nat → Sparse
  | [], _, _ => []
  | (k, arr) :: rest, pos, val =>
    if k = index pos / ps then
      (k, fun off => if off = index pos % ps then val else arr off) :: rest
    else (k, arr) :: Sparse.store ps rest pos val

/-- Embeds `sparse_at(entity)`: the sparse id the returned pointer points to, `none`
for `nullptr`. -/
def sparse_at (ps : Nat) (sparse : Sparse) (entity : Nat) : Option Nat :=
  let pos := index entity
  let page := pos / ps
  match Sparse.find sparse page with
  | some arr => some (arr (pos % ps))
  | none => none

/-- Embeds `valid(sid, v)`: `sid != nullptr and *sid != invalid_id and version(*sid) == v`. -/
def valid (sid : Option Nat) (v : Nat) : Bool :=
  match sid with
  | none => false
  | some s => s != invalid_id && version s == v

/-- The typed component pool: `sparse` and `dense` of the base, and `data`. -/
structure ComponentPool (V : Type) where
  sparse : Sparse
  dense : List Nat
  data : List V

/-- What `get` hands back: a pointer to a stored value, `nullptr`, or the
exception of `data.at`. -/
inductive Access (V : Type) where
  | value (v : V)
  | null
  | thrown
deriving DecidableEq, Repr

namespace ComponentPool

variable {V : Type}

/-- A default constructed pool. -/
def empty : ComponentPool V := ⟨[], [], []⟩

/-- Embeds `contains(entity)`. -/
def contains (ps : Nat) (p : ComponentPool V) (entity : Nat) : Bool :=
  valid (sparse_at ps p.sparse entity) (version entity)

/-- Embeds `add(entity, value)`. -/
def add (ps : Nat) (p : ComponentPool V) (entity : Nat) (value : V) :
    Option (ComponentPool V) :=
  let pos := index entity
  let page := pos / ps
  let sparse :=
    if Sparse.contains p.sparse page then p.sparse
    else (page, fun _ => invalid_id) :: p.sparse
  match sparse_at ps sparse pos with
  | none => none
  | some element =>
    if element = invalid_id then
      some { sparse := Sparse.store ps sparse pos (id p.dense.length (version entity))
             data := p.data ++ [value]
             dense := p.dense ++ [index entity] }
    else if version entity > version element then
      let element1 := id (index element) (version entity)
      if index element1 < p.data.length ∧ index element1 < p.dense.length then
        some { sparse := Sparse.store ps sparse pos element1
               data := p.data.set (index element1) value
               dense := p.dense.set (index element1) (index entity) }
      else none
    else
      some { p with sparse := sparse }

/-- Embeds `get(entity)`. -/
def get (ps : Nat) (p : ComponentPool V) (entity : Nat) : Access V :=
  let sid := sparse_at ps p.sparse entity
  if valid sid (version entity) then
    match sid with
    | some s =>
      match p.data[index s]? with
      | some v => Access.value v
      | none => Access.thrown
    | none => Access.thrown
  else Access.null

/-- Embeds `std::swap(xs.back(), xs.at(i))`. -/
def swapBack {α : Type} (xs : List α) (i : Nat) : Option (List α) :=
  match xs.getLast?, xs[i]? with
  | some l, some x => some ((xs.set (xs.length - 1) x).set i l)
  | _, _ => none

/-- Embeds `remove(entity)`. -/
def remove (ps : Nat) (p : ComponentPool V) (entity : Nat) : Option (ComponentPool V) :=
  let sid := sparse_at ps p.sparse entity
  if ¬ valid sid (version entity) then some p
  else
    match p.dense.getLast? with
    | none => none
    | some last =>
      match sparse_at ps p.sparse last, sparse_at ps p.sparse (index entity) with
      | some last_sparse, some removed_element =>
        let sparse1 := Sparse.store ps (Sparse.store ps p.sparse last removed_element)
          (index entity) last_sparse
        match sparse_at ps sparse1 last with
        | none => none
        | some moved =>
          match swapBack p.dense (index moved), swapBack p.data (index moved) with
          | some dense1, some data1 =>
            some { sparse := Sparse.store ps sparse1 (index entity) invalid_id
                   data := data1.dropLast
                   dense := dense1.dropLast }
          | _, _ => none
      | _, _ => none

/-- Embeds `clear()`: `sparse.clear(); data.clear();`. -/
def clear (p : ComponentPool V) : ComponentPool V :=
  { p with sparse := [], data := [] }

/-- Embeds `size()`. -/
def size (p : ComponentPool V) : Nat := p.dense.length

/-- Embeds `extent()`. -/
def extent (ps : Nat) (p : ComponentPool V) : Nat := p.sparse.length * ps

end ComponentPool

/-! ## scene -/

/-- The scene: the component pools keyed by the hash of the component type,
and the deque of free entity ids (front first). A component value of any type
is a `V`; its type is the key it is stored under. -/
structure Scene (V : Type) where
  component_pools : List (Nat × ComponentPool V)
  free_entities : List Nat

namespace Scene

variable {V : Type}

/-- A default constructed scene: no pools, `free_entities = {id(0, 0)}`. -/
def fresh : Scene V := ⟨[], [id 0 0]⟩

/-- Embeds `component_pools.find(t)`. -/
def findPool : List (Nat × ComponentPool V) → Nat → Option (ComponentPool V)
  | [], _ => none
  | (k, p) :: rest, t => if k = t then some p else findPool rest t

/-- Assignment through the reference returned by `cpool<C>()`. -/
def setPool : List (Nat × ComponentPool V) → Nat → ComponentPool V →
    List (Nat × ComponentPool V)
  | [], _, _ => []
  | (k, p) :: rest, t, q => if k = t then (k, q) :: rest else (k, p) :: setPool rest t q

/-- Embeds `cpool<C>()`: finds the pool of a type and creates it when there is none;
returns the scene with the pool in place and the pool. -/
def cpool (s : Scene V) (t : Nat) : Scene V × ComponentPool V :=
  match findPool s.component_pools t with
  | some p => (s, p)
  | none => ({ s with component_pools := s.component_pools ++ [(t, ComponentPool.empty)] },
             ComponentPool.empty)

/-- The fold `(cpool<C>().add(entity, components), ...)`, left to right. -/
def addComponents (ps : Nat) (entity : Nat) : List (Nat × V) → Scene V → Option (Scene V)
  | [], s => some s
  | (t, c) :: rest, s =>
    let (s1, pool) := cpool s t
    match ComponentPool.add ps pool entity c with
    | none => none
    | some pool1 =>
      addComponents ps entity rest
        { s1 with component_pools := setPool s1.component_pools t pool1 }

/-- The entity `add` takes from the free list and the free list it leaves. -/
def allocate (free_entities : List Nat) : Option (Nat × List Nat) :=
  match free_entities.head? with
  | none => none
  | some entity =>
    if free_entities.length > 1 then some (entity, free_entities.tail)
    else some (entity,
      free_entities.set (free_entities.length - 1) ((entity + 1) % 4294967296))

/-- Embeds `add(components...)`: the entity returned and the scene after the call. -/
def add (ps : Nat) (s : Scene V) (components : List (Nat × V)) : Option (Nat × Scene V) :=
  match allocate s.free_entities with
  | none => none
  | some (entity, free) =>
    match addComponents ps entity components { s with free_entities := free } with
    | none => none
    | some s1 => some (entity, s1)

/-- Embeds `get<C>(entity)`: the scene after the call (the pool may have been created)
and the result. -/
def get (ps : Nat) (s : Scene V) (t : Nat) (entity : Nat) : Scene V × Access V :=
  let (s1, pool) := cpool s t
  (s1, ComponentPool.get ps pool entity)

/-- The loop `for (auto &[key, pool] : component_pools) pool->remove(entity)`. -/
def removeAll (ps : Nat) (entity : Nat) : List (Nat × ComponentPool V) →
    Option (List (Nat × ComponentPool V))
  | [] => some []
  | (k, p) :: rest =>
    match ComponentPool.remove ps p entity, removeAll ps entity rest with
    | some p1, some rest1 => some ((k, p1) :: rest1)
    | _, _ => none

/-- Embeds `remove(entity)`. -/
def remove (ps : Nat) (s : Scene V) (entity : Nat) : Option (Scene V) :=
  match removeAll ps entity s.component_pools with
  | none => none
  | some pools =>
    some { component_pools := pools
           free_entities := id (index entity) (version entity + 1) :: s.free_entities }

end Scene

/-! ## invariants and scenarios -/

/-- The sparse slot of an entity is empty: its page is absent or the slot
holds the sentinel. -/
def slotEmpty (ps : Nat) (sparse : Sparse) (entity : Nat) : Prop :=
  sparse_at ps sparse entity = none ∨ sparse_at ps sparse entity = some invalid_id

instance (ps : Nat) (sparse : Sparse) (entity : Nat) :
    Decidable (slotEmpty ps sparse entity) := by
  unfold slotEmpty; infer_instance

/-- Dense/sparse consistency of a pool: `data` and `dense` have the same
length, every non-sentinel slot points at the dense position that names its
index, and every dense position is pointed at by the slot of the index it
names. -/
structure Consistent {V : Type} (ps : Nat) (p : ComponentPool V) : Prop where
  len : p.data.length = p.dense.length
  fwd : ∀ i s, i < 65536 → sparse_at ps p.sparse i = some s → s ≠ invalid_id →
    index s < p.dense.length ∧ p.dense[index s]? = some i
  bwd : ∀ pos d, p.dense[pos]? = some d →
    ∃ s, sparse_at ps p.sparse d = some s ∧ s ≠ invalid_id ∧ index s = pos

/-- The pools reachable from the empty pool by `add` and `remove` calls that
return. -/
inductive Reachable {V : Type} (ps : Nat) : ComponentPool V → Prop where
  | empty : Reachable ps ComponentPool.empty
  | add (p : ComponentPool V) (entity : Nat) (value : V) (q : ComponentPool V) :
      Reachable ps p → ComponentPool.add ps p entity value = some q → Reachable ps q
  | remove (p : ComponentPool V) (entity : Nat) (q : ComponentPool V) :
      Reachable ps p → ComponentPool.remove ps p entity = some q → Reachable ps q

/-- The pool after `add(id(1, 1), 0)`, `add(id(2, 1), 0)`, ..., `add(id(n, 1), 0)`
on the empty pool: `n` entities of generation 1 at the indices `1..n`. -/
def filled (ps : Nat) : Nat → ComponentPool Nat
  | 0 => ComponentPool.empty
  | n + 1 => ((filled ps n).add ps (id (n + 1) 1) 0).getD (filled ps n)

/-- The pool after `add(id(0, 1), 10); add(id(1, 0), 20)` on the empty pool: two
entities of different generations. -/
def mixedPool (ps : Nat) : Option (ComponentPool Nat) :=
  (ComponentPool.add ps ComponentPool.empty (id 0 1) 10).bind fun p =>
    ComponentPool.add ps p (id 1 0) 20

/-- The pool after adding `e1..e5 = id(0, 0) .. id(4, 0)` with the values
`10, 20, 30, 40, 50` to the empty pool. -/
def fivePool (ps : Nat) : Option (ComponentPool Nat) :=
  (ComponentPool.add ps ComponentPool.empty (id 0 0) 10).bind fun p =>
  (ComponentPool.add ps p (id 1 0) 20).bind fun p =>
  (ComponentPool.add ps p (id 2 0) 30).bind fun p =>
  (ComponentPool.add ps p (id 3 0) 40).bind fun p =>
  ComponentPool.add ps p (id 4 0) 50

/-- The pool after `add(id(3, 2), 5)` on the empty pool. -/
def onePool (ps : Nat) : ComponentPool Nat :=
  (ComponentPool.add ps ComponentPool.empty (id 3 2) 5).getD ComponentPool.empty

/-- The pool after `add(id(3, 2), 5); add(id(4, 0), 9)` on the empty pool: index 3
at dense position 0 and index 4 at dense position 1. -/
def twoPool (ps : Nat) : ComponentPool Nat :=
  (ComponentPool.add ps (onePool ps) (id 4 0) 9).getD (onePool ps)

/-- The pool after `add(id(0, 0), 5); clear()` on the empty pool. -/
def clearedPool (ps : Nat) : Option (ComponentPool Nat) :=
  (ComponentPool.add ps ComponentPool.empty (id 0 0) 5).map ComponentPool.clear

/-- The pool after `add(id(0, 0), 5); clear(); add(id(0, 0), 6)` on the empty
pool. -/
def reusedPool (ps : Nat) : Option (ComponentPool Nat) :=
  (clearedPool ps).bind fun p => ComponentPool.add ps p (id 0 0) 6

/-- A scene history of creates and destroys of live entities, all with one
component of type `7`: `x = add(100); y = add(200); remove(y); y1 = add(300);
remove(x)`. Returns the scene, and the handles `x`, `y` and `y1`. -/
def staleScenario (ps : Nat) : Option (Scene Nat × Nat × Nat × Nat) :=
  (Scene.add ps Scene.fresh [(7, 100)]).bind fun r1 =>
  (Scene.add ps r1.2 [(7, 200)]).bind fun r2 =>
  (Scene.remove ps r2.2 r2.1).bind fun s3 =>
  (Scene.add ps s3 [(7, 300)]).bind fun r4 =>
  (Scene.remove ps r4.2 r1.1).bind fun s5 =>
  some (s5, r1.1, r2.1, r4.1)

/-- A scene history of creates and destroys of live entities, all with one
component of type `7`: `a = add(100); remove(a); a1 = add(101); b = add(200);
remove(a1); remove(b); c = add(300)`. Returns the scene and the handle `c`. -/
def lostScenario (ps : Nat) : Option (Scene Nat × Nat) :=
  (Scene.add ps Scene.fresh [(7, 100)]).bind fun r1 =>
  (Scene.remove ps r1.2 r1.1).bind fun s2 =>
  (Scene.add ps s2 [(7, 101)]).bind fun r3 =>
  (Scene.add ps r3.2 [(7, 200)]).bind fun r4 =>
  (Scene.remove ps r4.2 r3.1).bind fun s5 =>
  (Scene.remove ps s5 r4.1).bind fun s6 =>
  (Scene.add ps s6 [(7, 300)]).bind fun r7 =>
  some (r7.2, r7.1)

/-- The scenario of the specification, `Position` being type `1` and `Velocity`
type `2`: `h1 = add(Position 0); h2 = add(Position 11, Velocity 50);
remove(h1); h3 = add(Position 22)`. Returns the scene and `h1`, `h2`, `h3`. -/
def specScenario (ps : Nat) : Option (Scene Nat × Nat × Nat × Nat) :=
  (Scene.add ps Scene.fresh [(1, 0)]).bind fun r1 =>
  (Scene.add ps r1.2 [(1, 11), (2, 50)]).bind fun r2 =>
  (Scene.remove ps r2.2 r1.1).bind fun s3 =>
  (Scene.add ps s3 [(1, 22)]).bind fun r4 =>
  some (r4.2, r1.1, r2.1, r4.1)

/-- Embeds `remove(h)` followed immediately by `add(components...)`: the entity the
`add` returns. -/
def destroyCreate {V : Type} (ps : Nat) (s : Scene V) (h : Nat)
    (components : List (Nat × V)) : Option Nat :=
  (Scene.remove ps s h).bind fun s1 => (Scene.add ps s1 components).map Prod.fst

/-- The scene after `n` rounds of `e = add(); remove(e)`. -/
def churn (ps : Nat) : Nat → Scene Nat → Option (Scene Nat)
  | 0, s => some s
  | n + 1, s =>
    (Scene.add ps s []).bind fun r => (Scene.remove ps r.2 r.1).bind fun s1 => churn ps n s1

/-- The scene after `add(3)` with one component of type `1` on a fresh scene;
its only entity is `id(0, 0)`. -/
def oneEntityScene (ps : Nat) : Scene Nat :=
  ((Scene.add ps Scene.fresh [(1, 3)]).map Prod.snd).getD Scene.fresh

/-- A scene history of creates and destroys of live entities, all with one
component of type `7`: `a = add(100); remove(a); a1 = add(101); b = add(200)`,
and then `remove(a1)`. Returns the scene before and the scene after the last
`remove`, and the handles `a1` and `b`, both live before it. -/
def orphanScenario (ps : Nat) : Option (Scene Nat × Scene Nat × Nat × Nat) :=
  (Scene.add ps Scene.fresh [(7, 100)]).bind fun r1 =>
  (Scene.remove ps r1.2 r1.1).bind fun s2 =>
  (Scene.add ps s2 [(7, 101)]).bind fun r3 =>
  (Scene.add ps r3.2 [(7, 200)]).bind fun r4 =>
  (Scene.remove ps r4.2 r3.1).bind fun s5 =>
  some (r4.2, s5, r3.1, r4.1)

/-- The scene after `a = add(3); b = add(4)` on a fresh scene, with one component
of type `1` each: the entities `a = id(0, 0)` and `b = id(1, 0)`. -/
def twoEntityScene (ps : Nat) : Scene Nat :=
  ((Scene.add ps (oneEntityScene ps) [(1, 4)]).map Prod.snd).getD Scene.fresh

/-- The scene after `a = add(3); b = add(4); remove(a)` on a fresh scene: `b` is
live and `free_entities` is `id(0, 1)` followed by the fresh counter 2. -/
def freedScene (ps : Nat) : Scene Nat :=
  (Scene.remove ps (twoEntityScene ps) (id 0 0)).getD Scene.fresh

/-- The scene after `a = add(3); b = add(4); remove(a); c = add(5)` on a fresh
scene: `b = id(1, 0)` and `c = id(0, 1)` are live, `c` reuses the index of `a`. -/
def reuseScene (ps : Nat) : Scene Nat :=
  ((Scene.add ps (freedScene ps) [(1, 5)]).map Prod.snd).getD Scene.fresh

/-- The scenes reachable from a fresh scene by `add` calls and by `remove` calls
on live handles, with their history: the handles that are live (returned by
`add` and not removed since), every handle `add` has returned, every handle
`remove` was called with, and the number of fresh indices issued: the number of
`add` calls that found a single entry in `free_entities`. -/
inductive History {V : Type} (ps : Nat) :
    Scene V → List Nat → List Nat → List Nat → Nat → Prop where
  | fresh : History ps Scene.fresh [] [] [] 0
  | add (s : Scene V) (live returned freed : List Nat) (issued : Nat)
      (components : List (Nat × V)) (e : Nat) (s1 : Scene V) :
      History ps s live returned freed issued →
      Scene.add ps s components = some (e, s1) →
      History ps s1 (e :: live) (e :: returned) freed
        (if s.free_entities.length > 1 then issued else issued + 1)
  | remove (s : Scene V) (live returned freed : List Nat) (issued : Nat) (h : Nat)
      (s1 : Scene V) :
      History ps s live returned freed issued → h ∈ live →
      Scene.remove ps s h = some s1 →
      History ps s1 (live.erase h) returned (h :: freed) issued

/-- The scene after `n` calls of `add()` without components. -/
def spawn (ps : Nat) : Nat → Scene Nat → Option (Scene Nat)
  | 0, s => some s
  | n + 1, s => (Scene.add ps s []).bind fun r => spawn ps n r.2

/-- The pool after `add(id(0, 0), 7); add(id(0, 1), 8)` on the pool holding the
65535 entities `id(1, 1) .. id(65535, 1)`. -/
def overfull (ps : Nat) : ComponentPool Nat :=
  ((ComponentPool.add ps (filled ps 65535) (id 0 0) 7).bind fun q =>
    ComponentPool.add ps q (id 0 1) 8).getD ComponentPool.empty

/-- The call sequence `h = add(); remove(h); remove(h); e1 = add(); e2 = add()` on
a fresh scene. Returns `free_entities` after the two `remove` calls, and the
handles `h`, `e1` and `e2`. -/
def doubleFree (ps : Nat) : Option (List Nat × Nat × Nat × Nat) :=
  (Scene.add ps (Scene.fresh : Scene Nat) []).bind fun r1 =>
  (Scene.remove ps r1.2 r1.1).bind fun s2 =>
  (Scene.remove ps s2 r1.1).bind fun s3 =>
  (Scene.add ps s3 []).bind fun r4 =>
  (Scene.add ps r4.2 []).bind fun r5 =>
  some (s3.free_entities, r1.1, r4.1, r5.1)

/-- The handles returned by successive `add` calls, one for each list of
components, and the scene after the last call. -/
def createAll {V : Type} (ps : Nat) :
    List (List (Nat × V)) → Scene V → Option (List Nat × Scene V)
  | [], s => some ([], s)
  | c :: cs, s =>
    (Scene.add ps s c).bind fun r =>
      (createAll ps cs r.2).map fun t => (r.1 :: t.1, t.2)

/-- The scenes reachable from a fresh scene by `add` calls and by `remove` calls
on live handles, with the handles that are live, every handle `add` has
returned, and the number of fresh indices issued: the number of `add` calls
that found a single entry in `free_entities`. -/
inductive Trace {V : Type} (ps : Nat) : Scene V → List Nat → List Nat → Nat → Prop where
  | fresh : Trace ps Scene.fresh [] [] 0
  | add (s : Scene V) (live returned : List Nat) (issued : Nat)
      (components : List (Nat × V)) (e : Nat) (s1 : Scene V) :
      Trace ps s live returned issued → Scene.add ps s components = some (e, s1) →
      Trace ps s1 (e :: live) (e :: returned)
        (if s.free_entities.length > 1 then issued else issued + 1)
  | remove (s : Scene V) (live returned : List Nat) (issued : Nat) (h : Nat) (s1 : Scene V) :
      Trace ps s live returned issued → h ∈ live → Scene.remove ps s h = some s1 →
      Trace ps s1 (live.erase h) returned issued

/-! ## factorial and binomial (`src/types/fresa_math.h`) -/

/-- Embeds `factorial<N>()`: `1` for `N == 0`, else `N * factorial<N-1>()`, a
product of `std::size_t` values, taken modulo `2^64`. -/
def factorial : Nat → Nat
  | 0 => 1
  | n + 1 => ((n + 1) * factorial n) % 18446744073709551616

/-- Embeds `binomial<N, K>()`:
`factorial<N>() / (factorial<K>() * factorial<N-K>())` in 64 bit unsigned
arithmetic; `none` when the divisor is zero. -/
def binomial (n k : Nat) : Option Nat :=
  let divisor := (factorial k * factorial (n - k)) % 18446744073709551616
  if divisor = 0 then none else some (factorial n / divisor)

/-! ## matrices, powers and smoothstep (`src/types/fresa_math.h`) -/

/-- Modelled from the spec: the compile time loop `for_<A, B>(f)` of
`constexpr_for.h`, a header that is not among the sources; following its uses
it calls `f(A)`, `f(A + 1)`, ..., `f(B - 1)` in this order. The state that the
lambda captures by reference is passed through the calls. -/
def for_ {σ : Type} (a b : Nat) (f : Nat → σ → σ) (s : σ) : σ :=
  (List.range' a (b - a)).foldl (fun acc i => f i acc) s

/-- The matrix `Mat<N, M, T>`: the array `data` of `N * M` entries, as a function
of the position; it is only ever read and written at positions `I * M + J`
with `I < N` and `J < M`. The entry type `T` is any semiring; for the integer
matrices of the tests it is `Int`, whose arithmetic is exact. -/
structure Mat (T : Type) (N M : Nat) where
  data : Nat → T

namespace Mat

variable {T : Type} {N M : Nat}

/-- The constructor `Mat()`, which value-initialises `data`. -/
def zero [Zero T] : Mat T N M := ⟨fun _ => 0⟩

/-- The constructor `Mat(std::array<T, N*M>&&)`. -/
def ofList [Zero T] (d : List T) : Mat T N M := ⟨fun p => d.getD p 0⟩

/-- The const `get<I, J>()`: `data.at(I * M + J)`. -/
def get (m : Mat T N M) (i j : Nat) : T := m.data (i * M + j)

/-- Assignment through the reference `get<I, J>()`. -/
def set (m : Mat T N M) (i j : Nat) (v : T) : Mat T N M :=
  ⟨fun p => if p = i * M + j then v else m.data p⟩

end Mat

/-- Matrix multiplication `dot<M, A, B>(a, b)`: `result` starts as `M()` and
`result.get<i, j>() += a.get<i, k>() * b.get<k, j>()` runs for all `i`, `j`, `k`
in loop order. -/
def dot {T : Type} [Semiring T] {N K M : Nat} (a : Mat T N K) (b : Mat T K M) :
    Mat T N M :=
  for_ 0 N (fun i result =>
    for_ 0 M (fun j result =>
      for_ 0 K (fun k result =>
        result.set i j (result.get i j + a.get i k * b.get k j)) result) result)
    Mat.zero

/-- The operator `a * b` on matrices: `dot<M, M, M>(a, b)` for square matrices
and `dot<Mat<AN, BM, T>>(a, b)` otherwise. -/
def Mat.mul {T : Type} [Semiring T] {N K M : Nat} (a : Mat T N K) (b : Mat T K M) :
    Mat T N M :=
  dot a b

/-- The function `transpose(a)` of a square matrix:
`result.get<j, i>() = a.get<i, j>()` for all `i`, `j`. -/
def transpose {T : Type} [Zero T] {N : Nat} (a : Mat T N N) : Mat T N N :=
  for_ 0 N (fun i result =>
    for_ 0 N (fun j result => result.set j i (a.get i j)) result) Mat.zero

/-- The function `identity<T, N>()`: `result.get<i, i>() = 1` for all `i`. -/
def identity (T : Type) [Zero T] [One T] (N : Nat) : Mat T N N :=
  for_ 0 N (fun i result => result.set i i 1) Mat.zero

/-- The function `detail::compare_op(a, b, op)`:
`result = result and op(a.get<i, j>(), b.get<i, j>())` for all `i`, `j`. -/
def compare_op {T : Type} {N M : Nat} (a b : Mat T N M) (op : T → T → Bool) : Bool :=
  for_ 0 N (fun i result =>
    for_ 0 M (fun j result => result && op (a.get i j) (b.get i j)) result) true

/-- The operator `a == b` on matrices: `compare_op(a, b, std::equal_to())`. -/
def Mat.eq {T : Type} [DecidableEq T] {N M : Nat} (a b : Mat T N M) : Bool :=
  compare_op a b (fun x y => decide (x = y))

/-- The function `pow<N>(x)`: `1` for `N == 0`, else `x * pow<N-1>(x)`; here in
exact rational arithmetic. -/
def pow : Nat → ℚ → ℚ
  | 0, _ => 1
  | n + 1, x => x * pow n x

/-- The function `std::clamp(v, lo, hi)`. -/
def clamp (v lo hi : ℚ) : ℚ := if v < lo then lo else if hi < v then hi else v

/-- The function `smoothstep<N>(x)` in exact rational arithmetic: the sum over
`K` in `[0, N]` of `binomial<N+K, K>() * binomial<2*N+1, N-K>() * pow<K>(-x)`,
the product of the two binomials being a 64 bit unsigned product, times
`pow<N+1>(x)`, for the clamped `x`; `none` when a `binomial` divides by zero. -/
def smoothstep (n : Nat) (x : ℚ) : Option ℚ :=
  let c := clamp x 0 1
  (for_ 0 (n + 1) (fun k result =>
      result.bind fun r =>
        (binomial (n + k) k).bind fun b1 =>
          (binomial (2 * n + 1) (n - k)).map fun b2 =>
            r + ((b1 * b2) % 18446744073709551616 : Nat) * pow k (-c))
    (some 0)).map fun result => pow (n + 1) c * result

/-- The matrices of the test `matrix 2x3 by 3x2 multiplication`. -/
def testA : Mat Int 2 3 := Mat.ofList [1, 2, 3, 4, 5, 6]

/-- The second matrix of the test `matrix 2x3 by 3x2 multiplication`. -/
def testB : Mat Int 3 2 := Mat.ofList [6, 5, 4, 3, 2, 1]

/-! ## lemmas -/

open ComponentPool

variable {V : Type}

theorem version_eq (x : Nat) : version x = x / 65536 % 65536 := by
  unfold version
  rw [Nat.shiftRight_eq_div_pow]

theorem id_eq (i v : Nat) : id i v = (v % 65536) * 65536 + i % 65536 := by
  unfold id
  have h1 : (v % 65536) <<< 16 % 4294967296 = (v % 65536) <<< 16 := by
    rw [Nat.shiftLeft_eq]
    apply Nat.mod_eq_of_lt
    have := Nat.mod_lt v (show 65536 > 0 by decide)
    omega
  rw [h1]
  have h2 : i % 65536 < 2 ^ 16 := Nat.mod_lt i (by decide)
  rw [Nat.shiftLeft_eq, Nat.mul_comm, ← Nat.mul_add_lt_is_or h2]

theorem index_id (i v : Nat) : index (id i v) = i % 65536 := by
  rw [id_eq]; unfold index; omega

theorem version_id (i v : Nat) : version (id i v) = v % 65536 := by
  rw [version_eq, id_eq]; omega

theorem invalid_id_eq : invalid_id = 65535 := by decide

theorem id_eq_invalid_iff (i v : Nat) :
    id i v = invalid_id ↔ i % 65536 = 65535 ∧ v % 65536 = 0 := by
  rw [id_eq, invalid_id_eq]; omega

theorem index_lt (x : Nat) : index x < 65536 := Nat.mod_lt x (by decide)
theorem version_lt (x : Nat) : version x < 65536 := Nat.mod_lt _ (by decide)
theorem index_index (x : Nat) : index (index x) = index x := by unfold index; omega
theorem index_of_lt {x : Nat} (h : x < 65536) : index x = x := Nat.mod_eq_of_lt h

theorem index_eq_iff (ps a b : Nat) :
    (a / ps = b / ps ∧ a % ps = b % ps) ↔ a = b := by
  constructor
  · rintro ⟨h1, h2⟩
    rw [← Nat.div_add_mod a ps, ← Nat.div_add_mod b ps, h1, h2]
  · rintro rfl; exact ⟨rfl, rfl⟩

theorem find_store (ps : Nat) (sp : Sparse) (pos val page : Nat) :
    Sparse.find (Sparse.store ps sp pos val) page =
      if page = index pos / ps then
        (Sparse.find sp page).map
          (fun arr off => if off = index pos % ps then val else arr off)
      else Sparse.find sp page := by
  induction sp with
  | nil => simp [Sparse.store, Sparse.find]
  | cons kv rest ih =>
    obtain ⟨k, arr⟩ := kv
    by_cases hk : k = index pos / ps
    · by_cases hp : page = index pos / ps
      · simp [Sparse.store, Sparse.find, hk, hp]
      · have : ¬ index pos / ps = page := fun h => hp h.symm
        simp [Sparse.store, Sparse.find, hk, hp, this]
    · by_cases hp : page = index pos / ps
      · subst hp
        simp only [Sparse.store, Sparse.find, hk, if_false, ih, if_true]
      · by_cases hkp : k = page
        · simp [Sparse.store, Sparse.find, hk, hkp, hp]
        · simp [Sparse.store, Sparse.find, hk, hkp, ih, hp]

theorem sparse_at_store (ps : Nat) (sp : Sparse) (i val j : Nat) :
    sparse_at ps (Sparse.store ps sp i val) j =
      if index j = index i then (sparse_at ps sp i).map (fun _ => val)
      else sparse_at ps sp j := by
  unfold sparse_at
  simp only [find_store]
  by_cases hij : index j = index i
  · simp only [hij, if_true]
    cases hf : Sparse.find sp (index i / ps) with
    | none => simp
    | some arr => simp
  · simp only [hij, if_false]
    by_cases hp : index j / ps = index i / ps
    · simp only [hp, if_true]
      have hoff : index j % ps ≠ index i % ps := by
        intro h
        exact hij ((index_eq_iff ps _ _).1 ⟨hp, h⟩)
      cases hf : Sparse.find sp (index i / ps) with
      | none => simp
      | some arr => simp [hoff]
    · simp [hp]

theorem sparse_at_index (ps : Nat) (sp : Sparse) (j : Nat) :
    sparse_at ps sp (index j) = sparse_at ps sp j := by
  unfold sparse_at; simp [index_index]

theorem sparse_at_newpage (ps : Nat) (sp : Sparse) (page j : Nat) :
    sparse_at ps ((page, fun _ => invalid_id) :: sp) j =
      if page = index j / ps then some invalid_id else sparse_at ps sp j := by
  unfold sparse_at
  by_cases hp : page = index j / ps
  · simp [Sparse.find, hp]
  · simp [Sparse.find, hp]

theorem sparse_at_none_iff (ps : Nat) (sp : Sparse) (j : Nat) :
    sparse_at ps sp j = none ↔ Sparse.contains sp (index j / ps) = false := by
  unfold Sparse.contains sparse_at
  cases hf : Sparse.find sp (index j / ps) with
  | none => simp [hf]
  | some arr => simp [hf]

theorem add_fresh (ps : Nat) (p : ComponentPool V) (h : Nat) (v : V)
    (he : slotEmpty ps p.sparse h) :
    ∃ sp, add ps p h v = some ⟨sp, p.dense ++ [index h], p.data ++ [v]⟩ ∧
      sparse_at ps sp h = some (id p.dense.length (version h)) ∧
      ∀ j, index j ≠ index h →
        sparse_at ps sp j = sparse_at ps p.sparse j ∨
          (sparse_at ps p.sparse j = none ∧ sparse_at ps sp j = some invalid_id) := by
  unfold add
  simp only [index_index]
  cases hc : Sparse.contains p.sparse (index h / ps) with
  | true =>
    have hs : sparse_at ps p.sparse h = some invalid_id := by
      rcases he with he | he
      · rw [sparse_at_none_iff, hc] at he; cases he
      · exact he
    simp only [if_true, sparse_at_index, hs]
    refine ⟨_, rfl, ?_, ?_⟩
    · rw [sparse_at_store]; simp [sparse_at_index, hs, index_index]
    · intro j hj
      left
      rw [sparse_at_store]; simp [index_index, hj]
  | false =>
    have hs : sparse_at ps ((index h / ps, fun _ => invalid_id) :: p.sparse) h
        = some invalid_id := by
      rw [sparse_at_newpage]; simp
    simp only [Bool.false_eq_true, if_false, sparse_at_index, hs, if_true]
    refine ⟨_, rfl, ?_, ?_⟩
    · rw [sparse_at_store]; simp [sparse_at_index, hs, index_index]
    · intro j hj
      rw [sparse_at_store]
      simp only [index_index, hj, if_false]
      rw [sparse_at_newpage]
      by_cases hp : index h / ps = index j / ps
      · right
        refine ⟨?_, by simp [hp]⟩
        rw [sparse_at_none_iff, ← hp]; exact hc
      · left; simp [hp]

theorem sparse_at_congr (ps : Nat) (sp : Sparse) {i j : Nat} (h : index i = index j) :
    sparse_at ps sp i = sparse_at ps sp j := by
  rw [← sparse_at_index ps sp i, ← sparse_at_index ps sp j, h]

theorem Consistent.dense_lt {ps : Nat} {p : ComponentPool V} (hc : Consistent ps p)
    {pos d : Nat} (hd : p.dense[pos]? = some d) : d < 65536 := by
  obtain ⟨s, hs, hne, hpos⟩ := hc.bwd pos d hd
  have h1 := hc.fwd (index d) s (index_lt d) (by rw [sparse_at_index]; exact hs) hne
  rw [hpos, hd] at h1
  have h2 : d = index d := Option.some.inj h1.2
  rw [h2]; exact index_lt d

theorem Consistent.dense_inj {ps : Nat} {p : ComponentPool V} (hc : Consistent ps p)
    {a b d : Nat} (ha : p.dense[a]? = some d) (hb : p.dense[b]? = some d) : a = b := by
  obtain ⟨s, hs, _, hpa⟩ := hc.bwd a d ha
  obtain ⟨t, ht, _, hpb⟩ := hc.bwd b d hb
  rw [hs] at ht
  cases ht
  omega

theorem Consistent.dense_nodup {ps : Nat} {p : ComponentPool V} (hc : Consistent ps p) :
    p.dense.Nodup := by
  rw [List.nodup_iff_getElem?_ne_getElem?]
  intro i j hij hj heq
  have hi : i < p.dense.length := by omega
  have h1 : p.dense[i]? = some p.dense[i] := List.getElem?_eq_getElem hi
  have h2 : p.dense[j]? = some p.dense[i] := by rw [← heq]; exact h1
  have := hc.dense_inj h1 h2
  omega

theorem Consistent.not_mem_of_empty {ps : Nat} {p : ComponentPool V} (hc : Consistent ps p)
    {h : Nat} (he : slotEmpty ps p.sparse h) (pos : Nat) :
    p.dense[pos]? ≠ some (index h) := by
  intro hpos
  obtain ⟨s, hs, hne, _⟩ := hc.bwd pos _ hpos
  rw [sparse_at_index] at hs
  rcases he with he | he
  · rw [he] at hs; cases hs
  · rw [he] at hs; cases hs; exact hne rfl

theorem Consistent.size_lt_of_empty {ps : Nat} {p : ComponentPool V} (hc : Consistent ps p)
    {h : Nat} (he : slotEmpty ps p.sparse h) : p.dense.length < 65536 := by
  have hnot : index h ∉ p.dense := by
    intro hm
    obtain ⟨pos, hpos⟩ := List.getElem?_of_mem hm
    exact hc.not_mem_of_empty he pos hpos
  have hnd : (index h :: p.dense).Nodup := List.nodup_cons.2 ⟨hnot, hc.dense_nodup⟩
  have hsub : (index h :: p.dense) ⊆ List.range 65536 := by
    intro x hx
    rw [List.mem_range]
    rcases List.mem_cons.1 hx with rfl | hx
    · exact index_lt h
    · obtain ⟨pos, hpos⟩ := List.getElem?_of_mem hx
      exact hc.dense_lt hpos
  have hle := (List.subperm_of_subset hnd hsub).length_le
  simp only [List.length_cons, List.length_range] at hle
  omega

theorem add_fresh_consistent (ps : Nat) (p : ComponentPool V) (h : Nat) (v : V)
    (hc : Consistent ps p) (he : slotEmpty ps p.sparse h)
    (hcap : ¬ (p.dense.length = 65535 ∧ version h = 0)) :
    ∃ q, add ps p h v = some q ∧ Consistent ps q := by
  obtain ⟨sp, hadd, hslot, hother⟩ := add_fresh ps p h v he
  have hn := hc.size_lt_of_empty he
  refine ⟨_, hadd, ⟨?_, ?_, ?_⟩⟩
  · simp [hc.len]
  · intro i s hi hs hne
    simp only at hs ⊢
    by_cases hih : index i = index h
    · rw [sparse_at_congr ps sp hih, hslot] at hs
      cases hs
      rw [index_id, Nat.mod_eq_of_lt hn]
      refine ⟨by simp, ?_⟩
      rw [index_of_lt hi] at hih
      simp [hih]
    · rcases hother i hih with h1 | ⟨_, h2⟩
      · rw [h1] at hs
        obtain ⟨hlt, hget⟩ := hc.fwd i s hi hs hne
        refine ⟨by simp; omega, ?_⟩
        rw [List.getElem?_append_left hlt]; exact hget
      · rw [h2] at hs; cases hs; exact absurd rfl hne
  · intro pos d hd
    simp only at hd ⊢
    by_cases hpos : pos < p.dense.length
    · rw [List.getElem?_append_left hpos] at hd
      obtain ⟨s, hs, hne, hidx⟩ := hc.bwd pos d hd
      have hdh : index d ≠ index h := by
        intro heq
        have hd' := hc.dense_lt hd
        rw [index_of_lt hd'] at heq
        rw [heq] at hd
        exact hc.not_mem_of_empty he pos hd
      rcases hother d hdh with h1 | ⟨h1, _⟩
      · exact ⟨s, by rw [h1]; exact hs, hne, hidx⟩
      · rw [h1] at hs; cases hs
    · have hlen : pos < (p.dense ++ [index h]).length := by
        rcases Nat.lt_or_ge pos (p.dense ++ [index h]).length with h1 | h1
        · exact h1
        · rw [List.getElem?_eq_none h1] at hd; cases hd
      simp only [List.length_append, List.length_singleton] at hlen
      have hpe : pos = p.dense.length := by omega
      subst hpe
      simp at hd
      subst hd
      refine ⟨_, by rw [sparse_at_index]; exact hslot, ?_, ?_⟩
      · rw [Ne, id_eq_invalid_iff, Nat.mod_eq_of_lt hn, Nat.mod_eq_of_lt (version_lt h)]
        exact hcap
      · rw [index_id, Nat.mod_eq_of_lt hn]

theorem add_occupied (ps : Nat) (p : ComponentPool V) (h : Nat) (v : V) (e : Nat)
    (hs : sparse_at ps p.sparse h = some e) (hne : e ≠ invalid_id) :
    add ps p h v =
      if version h > version e then
        if index e < p.data.length ∧ index e < p.dense.length then
          some ⟨Sparse.store ps p.sparse (index h) (id (index e) (version h)),
            p.dense.set (index e) (index h), p.data.set (index e) v⟩
        else none
      else some p := by
  have hc : Sparse.contains p.sparse (index h / ps) = true := by
    cases hcc : Sparse.contains p.sparse (index h / ps) with
    | true => rfl
    | false => rw [← sparse_at_none_iff, hs] at hcc; cases hcc
  unfold add
  simp only [index_index, hc, if_true, sparse_at_index, hs, hne, if_false, index_id,
    Nat.mod_eq_of_lt (index_lt e)]

theorem set_same {α : Type} (xs : List α) (i : Nat) (x : α) (h : xs[i]? = some x) :
    xs.set i x = xs := by
  apply List.ext_getElem?
  intro j
  rw [List.getElem?_set]
  by_cases hij : i = j
  · subst hij
    have hlt : i < xs.length := by
      rcases Nat.lt_or_ge i xs.length with h1 | h1
      · exact h1
      · rw [List.getElem?_eq_none h1] at h; cases h
    simp [hlt, h]
  · simp [hij]

theorem add_occupied_consistent (ps : Nat) (p : ComponentPool V) (h : Nat) (v : V)
    (hc : Consistent ps p) (he : ¬ slotEmpty ps p.sparse h) :
    ∃ q, add ps p h v = some q ∧ Consistent ps q := by
  cases hs : sparse_at ps p.sparse h with
  | none => exact absurd (Or.inl hs) he
  | some e =>
    have hne : e ≠ invalid_id := fun heq => he (Or.inr (by rw [hs, heq]))
    rw [add_occupied ps p h v e hs hne]
    obtain ⟨hlt, hget⟩ := hc.fwd (index h) e (index_lt h)
      (by rw [sparse_at_index]; exact hs) hne
    by_cases hv : version h > version e
    · have hd : index e < p.data.length := by rw [hc.len]; exact hlt
      simp only [hv, if_true, hd, hlt, and_self]
      refine ⟨_, rfl, ⟨?_, ?_, ?_⟩⟩
      · simp [hc.len]
      · intro i s hi hsi hnes
        simp only at hsi ⊢
        rw [set_same _ _ _ hget]
        rw [sparse_at_store, index_index] at hsi
        by_cases hih : index i = index h
        · simp only [hih, if_true, sparse_at_index, hs, Option.map_some'] at hsi
          cases hsi
          rw [index_id, Nat.mod_eq_of_lt (index_lt e)]
          rw [index_of_lt hi] at hih
          rw [hih]
          exact ⟨hlt, hget⟩
        · simp only [hih, if_false] at hsi
          exact hc.fwd i s hi hsi hnes
      · intro pos d hd'
        simp only at hd' ⊢
        rw [set_same _ _ _ hget] at hd'
        obtain ⟨s, hsd, hnes, hidx⟩ := hc.bwd pos d hd'
        rw [sparse_at_store, index_index]
        by_cases hdh : index d = index h
        · simp only [hdh, if_true, sparse_at_index, hs, Option.map_some']
          rw [sparse_at_congr ps _ hdh, hs] at hsd
          cases hsd
          refine ⟨_, rfl, ?_, ?_⟩
          · rw [Ne, id_eq_invalid_iff, Nat.mod_eq_of_lt (version_lt h)]
            omega
          · rw [index_id, Nat.mod_eq_of_lt (index_lt _)]; exact hidx
        · simp only [hdh, if_false]
          exact ⟨s, hsd, hnes, hidx⟩
    · simp only [hv, if_false]
      exact ⟨p, rfl, hc⟩

theorem add_consistent (ps : Nat) (p : ComponentPool V) (h : Nat) (v : V)
    (hc : Consistent ps p)
    (hcap : ¬ (slotEmpty ps p.sparse h ∧ p.dense.length = 65535 ∧ version h = 0)) :
    ∃ q, add ps p h v = some q ∧ Consistent ps q := by
  by_cases he : slotEmpty ps p.sparse h
  · exact add_fresh_consistent ps p h v hc he (fun hh => hcap ⟨he, hh⟩)
  · exact add_occupied_consistent ps p h v hc he

theorem valid_some (s v : Nat) :
    valid (some s) v = true ↔ s ≠ invalid_id ∧ version s = v := by
  simp [valid]

theorem valid_none (v : Nat) : valid none v = false := rfl

theorem getElem?_lt {α : Type} {xs : List α} {i : Nat} {x : α} (h : xs[i]? = some x) :
    i < xs.length := by
  rcases Nat.lt_or_ge i xs.length with h1 | h1
  · exact h1
  · rw [List.getElem?_eq_none h1] at h; cases h

theorem swapBack_dropLast {α : Type} (xs : List α) (i : Nat) (l x : α)
    (hl : xs.getLast? = some l) (hx : xs[i]? = some x) :
    ∃ ys, swapBack xs i = some ys ∧ ys.dropLast.length = xs.length - 1 ∧
      ∀ pos, ys.dropLast[pos]? =
        if pos < xs.length - 1 then (if pos = i then some l else xs[pos]?) else none := by
  refine ⟨(xs.set (xs.length - 1) x).set i l, ?_, ?_, ?_⟩
  · simp [swapBack, hl, hx]
  · simp
  · intro pos
    have hi := getElem?_lt hx
    rw [List.getElem?_dropLast]
    simp only [List.length_set]
    by_cases hp : pos < xs.length - 1
    · simp only [hp, if_true]
      rw [List.getElem?_set, List.getElem?_set]
      by_cases hpi : i = pos
      · subst hpi; simp [hi]
      · have h1 : ¬ pos = i := fun h => hpi h.symm
        have h2 : ¬ xs.length - 1 = pos := by omega
        simp [hpi, h1, h2]
    · simp [hp]

theorem remove_invalid (ps : Nat) (p : ComponentPool V) (h : Nat)
    (hv : valid (sparse_at ps p.sparse h) (version h) = false) :
    remove ps p h = some p := by
  unfold remove
  simp [hv]

theorem remove_valid (ps : Nat) (p : ComponentPool V) (h r : Nat) (hc : Consistent ps p)
    (hs : sparse_at ps p.sparse h = some r) (hne : r ≠ invalid_id)
    (hv : version r = version h) :
    ∃ q l, remove ps p h = some q ∧ p.dense.getLast? = some l ∧
      q.dense.length = p.dense.length - 1 ∧ q.data.length = p.data.length - 1 ∧
      (∀ pos, q.dense[pos]? =
        if pos < p.dense.length - 1 then (if pos = index r then some l else p.dense[pos]?)
        else none) ∧
      (∀ pos, q.data[pos]? =
        if pos < p.data.length - 1 then
          (if pos = index r then p.data.getLast? else p.data[pos]?)
        else none) ∧
      (∀ j, sparse_at ps q.sparse j =
        if index j = index h then some invalid_id
        else if index j = index l then some r else sparse_at ps p.sparse j) := by
  obtain ⟨hlt, hget⟩ := hc.fwd (index h) r (index_lt h)
    (by rw [sparse_at_index]; exact hs) hne
  have hn : p.dense.length - 1 < p.dense.length := by omega
  have hlast : p.dense.getLast? = some p.dense[p.dense.length - 1] := by
    rw [List.getLast?_eq_getElem?, List.getElem?_eq_getElem hn]
  obtain ⟨sl, hsl, hnel, hidxl⟩ := hc.bwd (p.dense.length - 1) _ (List.getElem?_eq_getElem hn)
  generalize p.dense[p.dense.length - 1] = l at hlast hsl
  have hdlen : p.data.length - 1 < p.data.length := by rw [hc.len]; exact hn
  have hdlast : p.data.getLast? = some p.data[p.data.length - 1] := by
    rw [List.getLast?_eq_getElem?, List.getElem?_eq_getElem hdlen]
  have hdr : index r < p.data.length := by rw [hc.len]; exact hlt
  have hmoved : sparse_at ps (Sparse.store ps (Sparse.store ps p.sparse l r) (index h) sl) l
      = some r := by
    simp only [sparse_at_store, index_index]
    by_cases hlh : index l = index h
    · have : sl = r := by
        rw [sparse_at_congr ps _ hlh, hs] at hsl
        exact (Option.some.inj hsl).symm
      simp [hlh, hsl, this]
    · simp [hlh, hsl]
  obtain ⟨dense1, hd1, hd1len, hd1get⟩ := swapBack_dropLast p.dense (index r) l _ hlast hget
  obtain ⟨data1, hx1, hx1len, hx1get⟩ := swapBack_dropLast p.data (index r) _ _ hdlast
    (List.getElem?_eq_getElem hdr)
  have hval : valid (some r) (version h) = true := by
    rw [valid_some]; exact ⟨hne, hv⟩
  refine ⟨⟨Sparse.store ps (Sparse.store ps (Sparse.store ps p.sparse l r) (index h) sl)
      (index h) invalid_id, dense1.dropLast, data1.dropLast⟩, l, ?_, hlast, hd1len, hx1len,
      hd1get, ?_, ?_⟩
  · unfold remove
    simp only [hval, not_true_eq_false, if_false, hlast, hsl, sparse_at_index, hs, hmoved,
      hd1, hx1]
  · intro pos
    rw [hx1get pos, hdlast]
  · intro j
    simp only [sparse_at_store, index_index]
    by_cases hjh : index j = index h
    · simp only [hjh, if_true]
      by_cases hhl : index h = index l
      · simp [hhl, hsl]
      · simp [hhl, sparse_at_index, hs]
    · simp only [hjh, if_false]
      by_cases hjl : index j = index l
      · simp [hjl, hsl]
      · simp [hjl]

theorem valid_cases (ps : Nat) (sp : Sparse) (h : Nat) :
    (valid (sparse_at ps sp h) (version h) = false) ∨
      ∃ r, sparse_at ps sp h = some r ∧ r ≠ invalid_id ∧ version r = version h := by
  cases hs : sparse_at ps sp h with
  | none => left; rfl
  | some r =>
    cases hv : valid (some r) (version h) with
    | false => left; rfl
    | true => right; exact ⟨r, rfl, (valid_some r _).1 hv⟩

theorem remove_valid_consistent (ps : Nat) (p : ComponentPool V) (h r : Nat)
    (hc : Consistent ps p) (hs : sparse_at ps p.sparse h = some r) (hne : r ≠ invalid_id)
    (hv : version r = version h) :
    ∃ q, remove ps p h = some q ∧ Consistent ps q ∧
      sparse_at ps q.sparse h = some invalid_id ∧ q.dense.length + 1 = p.dense.length := by
  obtain ⟨q, l, hrem, hlast, hdl, hxl, hdget, _, hsp⟩ := remove_valid ps p h r hc hs hne hv
  obtain ⟨hlt, hget⟩ := hc.fwd (index h) r (index_lt h)
    (by rw [sparse_at_index]; exact hs) hne
  have hl : p.dense[p.dense.length - 1]? = some l := by
    rw [← List.getLast?_eq_getElem?]; exact hlast
  have hl16 : index l = l := index_of_lt (hc.dense_lt hl)
  refine ⟨q, hrem, ⟨?_, ?_, ?_⟩, ?_, by omega⟩
  · rw [hdl, hxl, hc.len]
  · intro j s hj hsj hnes
    rw [hsp j] at hsj
    have hj16 : index j = j := index_of_lt hj
    by_cases hjh : index j = index h
    · simp only [hjh, if_true] at hsj
      cases hsj; exact absurd rfl hnes
    · simp only [hjh, if_false] at hsj
      by_cases hjl : index j = index l
      · simp only [hjl, if_true] at hsj
        have hsr : s = r := (Option.some.inj hsj).symm
        rw [hsr]
        have hpr : index r ≠ p.dense.length - 1 := by
          intro heq
          rw [heq, hl] at hget
          have : l = index h := Option.some.inj hget
          rw [hjl, hl16, this] at hjh
          exact hjh rfl
        have hlt' : index r < p.dense.length - 1 := by omega
        refine ⟨by omega, ?_⟩
        rw [hdget]
        simp only [hlt', if_true]
        rw [← hl16, ← hjl, hj16]
      · simp only [hjl, if_false] at hsj
        obtain ⟨hlts, hgets⟩ := hc.fwd j s hj hsj hnes
        have h1 : index s ≠ p.dense.length - 1 := by
          intro heq
          rw [heq, hl] at hgets
          have : l = j := Option.some.inj hgets
          rw [this] at hjl; exact hjl rfl
        have h2 : index s ≠ index r := by
          intro heq
          rw [heq, hget] at hgets
          have : index h = j := Option.some.inj hgets
          rw [← this, index_index] at hjh; exact hjh rfl
        have hlt' : index s < p.dense.length - 1 := by omega
        refine ⟨by omega, ?_⟩
        rw [hdget]
        simp only [hlt', if_true, h2, if_false]
        exact hgets
  · intro pos d hd
    rw [hdget] at hd
    by_cases hp : pos < p.dense.length - 1
    · simp only [hp, if_true] at hd
      by_cases hpr : pos = index r
      · simp only [hpr, if_true] at hd
        have hdl' : d = l := (Option.some.inj hd).symm
        rw [hdl']
        have hlh : index l ≠ index h := by
          intro heq
          rw [hl16] at heq
          rw [← heq] at hget
          have := hc.dense_inj hget hl
          omega
        rw [hsp]
        simp only [hlh, if_false, if_true]
        exact ⟨r, rfl, hne, hpr.symm⟩
      · simp only [hpr, if_false] at hd
        obtain ⟨s, hsd, hnes, hidx⟩ := hc.bwd pos d hd
        have hd16 : index d = d := index_of_lt (hc.dense_lt hd)
        have h1 : index d ≠ index h := by
          intro heq
          rw [hd16] at heq
          rw [heq] at hd
          exact hpr (hc.dense_inj hd hget)
        have h2 : index d ≠ index l := by
          intro heq
          rw [hd16, hl16] at heq
          rw [heq] at hd
          have := hc.dense_inj hd hl
          omega
        rw [hsp]
        simp only [h1, h2, if_false]
        exact ⟨s, hsd, hnes, hidx⟩
    · simp only [hp, if_false] at hd
      cases hd
  · rw [hsp]; simp

theorem remove_consistent (ps : Nat) (p : ComponentPool V) (h : Nat)
    (hc : Consistent ps p) : ∃ q, remove ps p h = some q ∧ Consistent ps q := by
  rcases valid_cases ps p.sparse h with hv | ⟨r, hs, hne, hv⟩
  · exact ⟨p, remove_invalid ps p h hv, hc⟩
  · obtain ⟨q, hq, hcq, _, _⟩ := remove_valid_consistent ps p h r hc hs hne hv
    exact ⟨q, hq, hcq⟩

theorem empty_consistent (ps : Nat) : Consistent ps (ComponentPool.empty : ComponentPool V) := by
  refine ⟨rfl, ?_, ?_⟩
  · intro i s _ hs; simp [ComponentPool.empty, sparse_at, Sparse.find] at hs
  · intro pos d hd; simp [ComponentPool.empty] at hd

theorem swapBack_length {α : Type} (xs ys : List α) (i : Nat) (h : swapBack xs i = some ys) :
    ys.length = xs.length := by
  unfold swapBack at h
  split at h
  · cases h; simp
  · cases h

theorem add_len (ps : Nat) (p q : ComponentPool V) (h : Nat) (v : V)
    (hadd : add ps p h v = some q) (hl : p.data.length = p.dense.length) :
    q.data.length = q.dense.length := by
  by_cases he : slotEmpty ps p.sparse h
  · obtain ⟨sp, h1, _, _⟩ := add_fresh ps p h v he
    rw [h1] at hadd
    cases hadd
    simp [hl]
  · cases hs : sparse_at ps p.sparse h with
    | none => exact absurd (Or.inl hs) he
    | some e =>
      have hne : e ≠ invalid_id := fun heq => he (Or.inr (by rw [hs, heq]))
      rw [add_occupied ps p h v e hs hne] at hadd
      split at hadd
      · split at hadd
        · cases hadd; simp [hl]
        · cases hadd
      · cases hadd; exact hl

theorem remove_len (ps : Nat) (p q : ComponentPool V) (h : Nat)
    (hrem : remove ps p h = some q) (hl : p.data.length = p.dense.length) :
    q.data.length = q.dense.length := by
  unfold remove at hrem
  simp only at hrem
  split at hrem
  · cases hrem; exact hl
  · split at hrem
    · cases hrem
    · split at hrem
      · split at hrem
        · cases hrem
        · split at hrem
          · rename_i dense1 data1 hd hx
            cases hrem
            simp only [List.length_dropLast]
            rw [swapBack_length _ _ _ hd, swapBack_length _ _ _ hx, hl]
          · cases hrem
      · cases hrem

theorem reachable_len (ps : Nat) (p : ComponentPool V) (hr : Reachable ps p) :
    p.data.length = p.dense.length := by
  induction hr with
  | empty => rfl
  | add p h v q _ hadd ih => exact add_len ps p q h v hadd ih
  | remove p h q _ hrem ih => exact remove_len ps p q h hrem ih

theorem add_fresh_get (ps : Nat) (p : ComponentPool V) (h : Nat) (v : V)
    (hl : p.data.length = p.dense.length) (he : slotEmpty ps p.sparse h)
    (hcap : p.dense.length < 65535 ∨ (p.dense.length = 65535 ∧ version h ≠ 0)) :
    ∃ q, add ps p h v = some q ∧ ComponentPool.get ps q h = Access.value v := by
  obtain ⟨sp, hadd, hslot, _⟩ := add_fresh ps p h v he
  refine ⟨_, hadd, ?_⟩
  have hn : p.dense.length < 65536 := by omega
  have hval : valid (some (id p.dense.length (version h))) (version h) = true := by
    rw [valid_some, Ne, id_eq_invalid_iff, version_id, Nat.mod_eq_of_lt hn,
      Nat.mod_eq_of_lt (version_lt h)]
    omega
  unfold ComponentPool.get
  simp only [hslot, hval, if_true, index_id, Nat.mod_eq_of_lt hn]
  rw [← hl]
  simp

theorem filled_spec (ps : Nat) (n : Nat) (hn : n ≤ 65535) :
    Reachable ps (filled ps n) ∧ Consistent ps (filled ps n) ∧
      (filled ps n).dense.length = n ∧
      ∀ j, (index j = 0 ∨ n < index j) → slotEmpty ps (filled ps n).sparse j := by
  induction n with
  | zero =>
    refine ⟨Reachable.empty, empty_consistent ps, rfl, ?_⟩
    intro j _
    left
    simp [filled, ComponentPool.empty, sparse_at, Sparse.find]
  | succ n ih =>
    obtain ⟨hr, hc, hlen, hemp⟩ := ih (by omega)
    have hidx : index (id (n + 1) 1) = n + 1 := by
      rw [index_id]; exact Nat.mod_eq_of_lt (by omega)
    have hver : version (id (n + 1) 1) = 1 := by rw [version_id]
    have he : slotEmpty ps (filled ps n).sparse (id (n + 1) 1) :=
      hemp _ (Or.inr (by rw [hidx]; omega))
    obtain ⟨sp, hadd, hslot, hother⟩ := add_fresh ps (filled ps n) (id (n + 1) 1) 0 he
    obtain ⟨q, hq, hcq⟩ := add_fresh_consistent ps (filled ps n) (id (n + 1) 1) 0 hc he
      (by rw [hver]; omega)
    have hfq : filled ps (n + 1) = q := by
      simp only [filled, hq, Option.getD_some]
    rw [hadd] at hq
    have hq' := Option.some.inj hq
    rw [hfq]
    refine ⟨Reachable.add _ _ _ _ hr (by rw [hadd, hq']), hcq, ?_, ?_⟩
    · rw [← hq']; simp [hlen]
    · intro j hj
      have hjne : index j ≠ index (id (n + 1) 1) := by rw [hidx]; omega
      have hej := hemp j (by omega)
      rw [← hq']
      rcases hother j hjne with h1 | ⟨_, h2⟩
      · unfold slotEmpty; rw [h1]; exact hej
      · right; exact h2

/-! ## the claims -/

theorem consistent_add_getD (ps : Nat) (p : ComponentPool V) (h : Nat) (v : V)
    (hc : Consistent ps p)
    (hcap : ¬ (slotEmpty ps p.sparse h ∧ p.dense.length = 65535 ∧ version h = 0)) :
    Consistent ps ((add ps p h v).getD p) := by
  obtain ⟨q, hq, hcq⟩ := add_consistent ps p h v hc hcap
  rw [hq]; exact hcq

theorem onePool_consistent (ps : Nat) : Consistent ps (onePool ps) :=
  consistent_add_getD ps _ _ _ (empty_consistent ps)
    (fun h => absurd h.2.1 (by decide))

theorem twoPool_consistent : Consistent 1024 (twoPool 1024) :=
  consistent_add_getD 1024 _ _ _ (onePool_consistent 1024)
    (fun h => absurd h.2.1 (by decide))

/-- The instance of the specification for swap-remove: with `e1..e5` of one
generation, removing `e3` leaves the values of the four others and the size
is 4. -/
theorem swap_remove_spec_instance :
    ((fivePool 1024).bind fun p => remove 1024 p (id 2 0)).map
      (fun p => (ComponentPool.get 1024 p (id 0 0), ComponentPool.get 1024 p (id 1 0),
        ComponentPool.get 1024 p (id 3 0), ComponentPool.get 1024 p (id 4 0), size p))
      = some (Access.value 10, Access.value 20, Access.value 40, Access.value 50, 4) := by
  decide

/-- C1, evaluated where it fails: after `add(id(0, 1), 10); add(id(1, 0), 20)` both
handles have a value and different indices, and after `remove(id(0, 1))` the
call `get(id(1, 0))` returns `nullptr` instead of `20`: the swap moved the
generation of the removed slot into the slot of the last entity. -/
theorem swap_remove_loses_other_generation :
    (mixedPool 1024).map (fun p =>
        (ComponentPool.get 1024 p (id 0 1), ComponentPool.get 1024 p (id 1 0)))
      = some (Access.value 10, Access.value 20) ∧
    index (id 0 1) ≠ index (id 1 0) ∧
    ((mixedPool 1024).bind fun p => remove 1024 p (id 0 1)).map
      (fun p => (ComponentPool.get 1024 p (id 1 0), sparse_at 1024 p.sparse (id 1 0)))
      = some (Access.null, some (id 0 1)) := by
  decide

/-- C2, evaluated where it fails: after `x = add(100); y = add(200); remove(y);
y1 = add(300); remove(x)` the handle `y = id(1, 0)` was returned by `add` and
has been destroyed, `y1 = id(1, 1)` reuses its index, and `get(y)` returns the
value `300` of `y1` instead of `nullptr`. -/
theorem stale_handle_reads_reused_slot :
    (staleScenario 1024).map (fun r => (r.2.1, r.2.2.1, r.2.2.2,
        (Scene.get 1024 r.1 7 r.2.2.1).2))
      = some (id 0 0, id 1 0, id 1 1, Access.value 300) := by
  decide

/-- The scenario of the specification: `h3` has the index of `h1` and the next
generation, `get<Position>(h1)` is `nullptr`, `get<Position>(h3)` is the value
created, `get<Velocity>(h2)` is unchanged. -/
theorem spec_scenario_instance :
    (specScenario 1024).map (fun r => (r.2.1, r.2.2.1, r.2.2.2))
      = some (id 0 0, id 1 0, id 0 1) ∧
    (specScenario 1024).map (fun r => ((Scene.get 1024 r.1 1 r.2.1).2,
        (Scene.get 1024 r.1 1 r.2.2.2).2, (Scene.get 1024 r.1 2 r.2.2.1).2))
      = some (Access.null, Access.value 22, Access.value 50) := by
  decide

/-- C4, evaluated where it fails: after `a = add(100); remove(a); a1 = add(101);
b = add(200); remove(a1); remove(b)`, every destroy on a live handle, the call
`c = add(300)` returns `id(1, 1)` and `get(c)` returns `200`, the value of the
destroyed `b`, instead of `300`. -/
theorem create_reads_destroyed_value :
    (lostScenario 1024).map (fun r => (r.2, (Scene.get 1024 r.1 7 r.2).2))
      = some (id 1 1, Access.value 200) := by
  decide

/-- C8, evaluated where it fails: after `add(id(0, 0), 5); clear()` the extent
is `0` and `data` is empty, and `size()` is still `1`: `clear` does not clear
`dense`. -/
theorem clear_keeps_size :
    (clearedPool 1024).map (fun p => (size p, extent 1024 p, p.data.length))
      = some (1, 0, 0) := by
  decide

/-- C9, evaluated where it fails: after `add(id(0, 0), 5); clear();
add(id(0, 0), 6)` the call `get(id(0, 0))` throws out of `data.at` and `size()`
is `2`: the slot holds the position `dense.size() = 1` and `data` has one
element. -/
theorem add_after_clear_throws :
    (reusedPool 1024).map (fun p =>
        (ComponentPool.get 1024 p (id 0 0), size p, sparse_at 1024 p.sparse (id 0 0),
          p.data))
      = some (Access.thrown, 2, some (id 1 0), [6]) := by
  decide

theorem add_at_capacity (ps : Nat) (v : Nat) :
    ∃ q, add ps (filled ps 65535) (id 0 0) v = some q ∧
      sparse_at ps q.sparse (id 0 0) = some invalid_id ∧
      q.dense = (filled ps 65535).dense ++ [0] := by
  obtain ⟨_, _, hlen, hemp⟩ := filled_spec ps 65535 (Nat.le_refl _)
  have he : slotEmpty ps (filled ps 65535).sparse (id 0 0) := hemp _ (Or.inl (by decide))
  obtain ⟨sp, hadd, hslot, _⟩ := add_fresh ps (filled ps 65535) (id 0 0) v he
  refine ⟨_, hadd, ?_, rfl⟩
  rw [hslot, hlen]
  rfl

/-- C3 refuted at the capacity of the pool: the pool holding the 65535 entities
`id(1, 1) .. id(65535, 1)` is reachable by `add` calls, the slot of `id(0, 0)`
is empty, and after `add(id(0, 0), 7)` the call `get(id(0, 0))` returns
`nullptr`: the slot written, position 65535 at generation 0, is the
sentinel. -/
theorem pool_round_trip_fails_at_capacity :
    Reachable 1024 (filled 1024 65535) ∧
    slotEmpty 1024 (filled 1024 65535).sparse (id 0 0) ∧
    size (filled 1024 65535) = 65535 ∧
    ∃ q, add 1024 (filled 1024 65535) (id 0 0) 7 = some q ∧
      ComponentPool.get 1024 q (id 0 0) = Access.null := by
  obtain ⟨hr, _, hlen, hemp⟩ := filled_spec 1024 65535 (Nat.le_refl _)
  refine ⟨hr, hemp _ (Or.inl (by decide)), hlen, ?_⟩
  obtain ⟨q, hq, hslot, _⟩ := add_at_capacity 1024 7
  refine ⟨q, hq, ?_⟩
  have hv : valid (some invalid_id) (version (id 0 0)) = false := by simp [valid]
  unfold ComponentPool.get
  simp [hslot, hv]

/-- C3 as amended: in every pool reachable from the empty pool by `add` and
`remove`, for every handle `h` whose sparse slot is empty and every value `v`,
when `size() < 65535`, or `size() = 65535` and the generation of `h` is not 0,
`add(h, v)` returns and `get(h)` then returns `v`. -/
theorem pool_round_trip (ps : Nat) (p : ComponentPool V) (h : Nat) (v : V)
    (hr : Reachable ps p) (he : slotEmpty ps p.sparse h)
    (hcap : size p < 65535 ∨ (size p = 65535 ∧ version h ≠ 0)) :
    ∃ q, add ps p h v = some q ∧ ComponentPool.get ps q h = Access.value v :=
  add_fresh_get ps p h v (reachable_len ps p hr) he hcap

/-- C3 at a concrete input: `add(id(3, 2), 5)` on the empty pool, then
`get(id(3, 2))`. -/
theorem pool_round_trip_witness :
    Reachable 1024 (ComponentPool.empty : ComponentPool Nat) ∧
    slotEmpty 1024 (ComponentPool.empty : ComponentPool Nat).sparse (id 3 2) ∧
    ∃ q, add 1024 (ComponentPool.empty : ComponentPool Nat) (id 3 2) 5 = some q ∧
      ComponentPool.get 1024 q (id 3 2) = Access.value 5 :=
  ⟨Reachable.empty, by decide,
    pool_round_trip 1024 ComponentPool.empty (id 3 2) 5 Reachable.empty (by decide)
      (Or.inl (by decide))⟩

/-- C5: in every pool satisfying the dense/sparse consistency invariant, for
every handle `h` for which `get(h)` returns a value, `remove(h)` returns, after
it `get(h)` returns `nullptr`, and `size()` is exactly one less than before. -/
theorem removal_clears (ps : Nat) (p : ComponentPool V) (h : Nat)
    (hc : Consistent ps p) (hg : ∃ v, ComponentPool.get ps p h = Access.value v) :
    ∃ q, remove ps p h = some q ∧ ComponentPool.get ps q h = Access.null ∧
      size q + 1 = size p := by
  rcases valid_cases ps p.sparse h with hv | ⟨r, hs, hne, hv⟩
  · obtain ⟨v, hg⟩ := hg
    unfold ComponentPool.get at hg
    simp [hv] at hg
  · obtain ⟨q, hq, _, hslot, hsize⟩ := remove_valid_consistent ps p h r hc hs hne hv
    refine ⟨q, hq, ?_, hsize⟩
    unfold ComponentPool.get
    simp only [hslot]
    have : valid (some invalid_id) (version h) = false := by simp [valid]
    simp [this]

/-- C5 at a concrete input: `remove(id(3, 2))` on the pool holding only
`id(3, 2)`. -/
theorem removal_clears_witness :
    Consistent 1024 (onePool 1024) ∧
    (∃ v, ComponentPool.get 1024 (onePool 1024) (id 3 2) = Access.value v) ∧
    ∃ q, remove 1024 (onePool 1024) (id 3 2) = some q ∧
      ComponentPool.get 1024 q (id 3 2) = Access.null ∧ size q + 1 = size (onePool 1024) :=
  ⟨onePool_consistent 1024, ⟨5, by decide⟩,
    removal_clears 1024 (onePool 1024) (id 3 2) (onePool_consistent 1024) ⟨5, by decide⟩⟩

/-- Outside the consistency invariant `get` can throw: after `add(id(0, 0), 5);
clear(); add(id(0, 0), 6)`, where `clear()` left the entry of the first `add` in
`dense`, the page of index 0 exists, its slot is not the sentinel and holds the
generation of the handle, and `get(id(0, 0))` returns no value: `data.at`
throws, the position stored is 1 and `data` has one element. -/
theorem get_throws_on_valid_slot :
    (reusedPool 1024).map (fun p =>
        (Sparse.contains p.sparse (index (id 0 0) / 1024),
          sparse_at 1024 p.sparse (id 0 0),
          decide (some invalid_id ≠ sparse_at 1024 p.sparse (id 0 0)),
          (sparse_at 1024 p.sparse (id 0 0)).map version,
          ComponentPool.get 1024 p (id 0 0)))
      = some (true, some (id 1 0), true, some (version (id 0 0)), Access.thrown) := by
  decide

/-- C7 refuted at the capacity of the pool: the pool holding the 65535 entities
`id(1, 1) .. id(65535, 1)` satisfies the three facts, and after
`add(id(0, 0), 7)` it does not: dense position 65535 names index 0, whose slot
is the sentinel. -/
theorem consistency_broken_at_capacity :
    Consistent 1024 (filled 1024 65535) ∧
    ∃ q, add 1024 (filled 1024 65535) (id 0 0) 7 = some q ∧ ¬ Consistent 1024 q := by
  obtain ⟨_, hc, hlen, _⟩ := filled_spec 1024 65535 (Nat.le_refl _)
  refine ⟨hc, ?_⟩
  obtain ⟨q, hq, hslot, hdense⟩ := add_at_capacity 1024 7
  refine ⟨q, hq, ?_⟩
  intro hcq
  have hd : q.dense[65535]? = some 0 := by
    rw [hdense, List.getElem?_append_right (by omega), hlen]
    rfl
  obtain ⟨s, hs, hne, _⟩ := hcq.bwd 65535 0 hd
  have h0 : sparse_at 1024 q.sparse 0 = some invalid_id := hslot
  rw [h0] at hs
  exact hne (Option.some.inj hs).symm

/-- C7 as amended: if a pool satisfies the three facts of dense/sparse
consistency, then for every handle `h` and value `v`, `remove(h)` returns and
the facts hold after it, and `add(h, v)` returns and the facts hold after it
unless the slot of `h` is empty, `size()` is 65535 and the generation of `h` is
0 (the slot written would be the sentinel). -/
theorem consistency_preserved (ps : Nat) (p : ComponentPool V) (h : Nat) (v : V)
    (hc : Consistent ps p) :
    (¬ (slotEmpty ps p.sparse h ∧ size p = 65535 ∧ version h = 0) →
      ∃ q, add ps p h v = some q ∧ Consistent ps q) ∧
    (∃ q, remove ps p h = some q ∧ Consistent ps q) :=
  ⟨fun hcap => add_consistent ps p h v hc hcap, remove_consistent ps p h hc⟩

/-- C7 at concrete inputs, on the pool holding `id(3, 2)` at position 0 and
`id(4, 0)` at position 1: `add(id(5, 0), 9)` appends at position 2,
`add(id(4, 1), 8)` overwrites position 1, and `remove(id(3, 2))` moves index 4
to position 0; the three facts hold after each. -/
theorem consistency_preserved_witness :
    Consistent 1024 (twoPool 1024) ∧
    (twoPool 1024).dense = [3, 4] ∧ (twoPool 1024).data = [5, 9] ∧
    ¬ (slotEmpty 1024 (twoPool 1024).sparse (id 5 0) ∧ size (twoPool 1024) = 65535 ∧
      version (id 5 0) = 0) ∧
    ¬ (slotEmpty 1024 (twoPool 1024).sparse (id 4 1) ∧ size (twoPool 1024) = 65535 ∧
      version (id 4 1) = 0) ∧
    (add 1024 (twoPool 1024) (id 5 0) 9).map (fun q => (q.dense, q.data))
      = some ([3, 4, 5], [5, 9, 9]) ∧
    (add 1024 (twoPool 1024) (id 4 1) 8).map (fun q => (q.dense, q.data))
      = some ([3, 4], [5, 8]) ∧
    (remove 1024 (twoPool 1024) (id 3 2)).map (fun q => (q.dense, q.data))
      = some ([4], [9]) ∧
    (∃ q, add 1024 (twoPool 1024) (id 5 0) 9 = some q ∧ Consistent 1024 q) ∧
    (∃ q, add 1024 (twoPool 1024) (id 4 1) 8 = some q ∧ Consistent 1024 q) ∧
    (∃ q, remove 1024 (twoPool 1024) (id 3 2) = some q ∧ Consistent 1024 q) :=
  ⟨twoPool_consistent, by decide, by decide, by decide, by decide, by decide,
    by decide, by decide,
    (consistency_preserved 1024 (twoPool 1024) (id 5 0) 9 (twoPool_consistent)).1
      (by decide),
    (consistency_preserved 1024 (twoPool 1024) (id 4 1) 8 (twoPool_consistent)).1
      (by decide),
    (consistency_preserved 1024 (twoPool 1024) (id 3 2) 9 (twoPool_consistent)).2⟩

theorem allocate_cons (e : Nat) (rest : List Nat) :
    ∃ free, Scene.allocate (e :: rest) = some (e, free) := by
  unfold Scene.allocate
  simp only [List.head?_cons]
  split
  · exact ⟨_, rfl⟩
  · exact ⟨_, rfl⟩

theorem add_entity (ps : Nat) (s s2 : Scene V) (components : List (Nat × V)) (e e0 : Nat)
    (rest : List Nat) (hf : s.free_entities = e0 :: rest)
    (hadd : Scene.add ps s components = some (e, s2)) : e = e0 := by
  obtain ⟨free, ha⟩ := allocate_cons e0 rest
  unfold Scene.add at hadd
  rw [hf, ha] at hadd
  simp only at hadd
  split at hadd
  · cases hadd
  · cases hadd; rfl

theorem add_nil (ps : Nat) (s : Scene V) (e0 : Nat) (rest : List Nat)
    (hf : s.free_entities = e0 :: rest) :
    (Scene.add ps s []).map Prod.fst = some e0 := by
  obtain ⟨free, ha⟩ := allocate_cons e0 rest
  unfold Scene.add
  rw [hf, ha]
  simp [Scene.addComponents]

theorem remove_free (ps : Nat) (s s1 : Scene V) (h : Nat)
    (hrem : Scene.remove ps s h = some s1) :
    s1.free_entities = id (index h) (version h + 1) :: s.free_entities := by
  unfold Scene.remove at hrem
  split at hrem
  · cases hrem
  · cases hrem; rfl

theorem churn_from (ps n k : Nat) :
    churn ps n (⟨[], [id 0 k, id 1 0]⟩ : Scene Nat) = some ⟨[], [id 0 (k + n), id 1 0]⟩ := by
  induction n generalizing k with
  | zero => rfl
  | succ n ih =>
    have h1 : Scene.add ps (⟨[], [id 0 k, id 1 0]⟩ : Scene Nat) []
        = some (id 0 k, ⟨[], [id 1 0]⟩) := by
      simp [Scene.add, Scene.allocate, Scene.addComponents]
    have h2 : id (index (id 0 k)) (version (id 0 k) + 1) = id 0 (k + 1) := by
      rw [index_id, version_id, id_eq, id_eq]; omega
    have h3 : Scene.remove ps (⟨[], [id 1 0]⟩ : Scene Nat) (id 0 k)
        = some ⟨[], [id 0 (k + 1), id 1 0]⟩ := by
      simp [Scene.remove, Scene.removeAll, h2]
    unfold churn
    rw [h1]
    simp only [Option.some_bind, h3]
    rw [ih (k + 1)]
    have : k + 1 + n = k + (n + 1) := by omega
    rw [this]

theorem churn_fresh (ps n : Nat) :
    churn ps (n + 1) (Scene.fresh : Scene Nat) = some ⟨[], [id 0 (n + 1), id 1 0]⟩ := by
  have h1 : Scene.add ps (Scene.fresh : Scene Nat) [] = some (id 0 0, ⟨[], [id 1 0]⟩) := by
    have : (id 0 0 + 1) % 4294967296 = id 1 0 := by decide
    simp [Scene.add, Scene.allocate, Scene.addComponents, Scene.fresh, this]
  have h3 : Scene.remove ps (⟨[], [id 1 0]⟩ : Scene Nat) (id 0 0)
      = some ⟨[], [id 0 1, id 1 0]⟩ := by
    have : id (index (id 0 0)) (version (id 0 0) + 1) = id 0 1 := by decide
    simp [Scene.remove, Scene.removeAll, this]
  unfold churn
  rw [h1]
  simp only [Option.some_bind, h3]
  rw [churn_from ps n 1]
  have : 1 + n = n + 1 := by omega
  rw [this]

/-- C10 refuted where the generation wraps: after 65535 rounds of
`e = add(); remove(e)` on a fresh scene, `add()` returns the live handle
`id(0, 65535)`, and `remove` of it followed by `add()` returns `id(0, 0)`, whose
generation 0 is not `65535 + 1`. -/
theorem generation_wraps :
    ((churn 1024 65535 Scene.fresh).bind fun s => (Scene.add 1024 s []).map Prod.fst)
      = some (id 0 65535) ∧
    ((churn 1024 65535 Scene.fresh).bind fun s =>
      (Scene.add 1024 s []).bind fun r => destroyCreate 1024 r.2 r.1 [])
      = some (id 0 0) ∧
    version (id 0 0) ≠ version (id 0 65535) + 1 := by
  rw [churn_fresh 1024 65534]
  decide

/-- C10 as amended: for every scene and every handle `h` (live or not) whose
`remove` returns, `remove(h)` followed immediately by `add(components...)`
returns the handle `id(index(h), version(h) + 1)`: its index is `index(h)` and
its generation is `version(h) + 1` modulo `65536`, which is `version(h) + 1`
unless `version(h)` is 65535. With no components the `add` always returns. -/
theorem lifo_reuse (ps : Nat) (s s1 : Scene V) (h : Nat)
    (hrem : Scene.remove ps s h = some s1) :
    destroyCreate ps s h [] = some (id (index h) (version h + 1)) ∧
    (∀ components e, destroyCreate ps s h components = some e →
      e = id (index h) (version h + 1)) ∧
    index (id (index h) (version h + 1)) = index h ∧
    version (id (index h) (version h + 1)) = (version h + 1) % 65536 := by
  have hf := remove_free ps s s1 h hrem
  refine ⟨?_, ?_, ?_, ?_⟩
  · unfold destroyCreate
    rw [hrem]
    exact add_nil ps s1 _ _ hf
  · intro components e hdc
    unfold destroyCreate at hdc
    rw [hrem] at hdc
    simp only [Option.some_bind] at hdc
    cases hadd : Scene.add ps s1 components with
    | none => rw [hadd] at hdc; cases hdc
    | some r =>
      rw [hadd] at hdc
      have : r.1 = e := Option.some.inj hdc
      rw [← this]
      exact add_entity ps s1 r.2 components r.1 _ _ hf hadd
  · rw [index_id]; exact Nat.mod_eq_of_lt (index_lt h)
  · rw [version_id]

/-- C10 at a concrete scene: the only entity `id(0, 0)` of `oneEntityScene` is
removed and the next `add` returns `id(0, 1)`. -/
theorem lifo_reuse_witness :
    Scene.remove 1024 (oneEntityScene 1024) (id 0 0) =
      some ((Scene.remove 1024 (oneEntityScene 1024) (id 0 0)).getD Scene.fresh) ∧
    destroyCreate 1024 (oneEntityScene 1024) (id 0 0) [] = some (id 0 1) :=
  ⟨rfl, (lifo_reuse 1024 (oneEntityScene 1024)
    ((Scene.remove 1024 (oneEntityScene 1024) (id 0 0)).getD Scene.fresh) (id 0 0) rfl).1⟩

/-- C11, evaluated where it fails: after `a = add(100); remove(a); a1 = add(101);
b = add(200)` the handles `a1 = id(0, 1)` and `b = id(1, 0)` are live and
`get(b)` returns `200`; after `remove(a1)` the call `get(b)` returns `nullptr`:
the swap in the pool moved the generation of `a1` into the slot of `b`. -/
theorem destroy_loses_other_entity :
    (orphanScenario 1024).map (fun r => (r.2.2.1, r.2.2.2,
        (Scene.get 1024 r.1 7 r.2.2.2).2, (Scene.get 1024 r.2.1 7 r.2.2.2).2))
      = some (id 0 1, id 1 0, Access.value 200, Access.null) := by
  decide

/-- C12: for every pool and every handle `h` whose slot is occupied (not the
sentinel) with a stored generation greater than or equal to the generation of
`h`, `add(h, v)` returns and leaves `sparse`, `dense` and `data` as they were,
for every value `v`. -/
theorem duplicate_insert_no_mutation (ps : Nat) (p : ComponentPool V) (h : Nat) (v : V)
    (e : Nat) (hs : sparse_at ps p.sparse h = some e) (hne : e ≠ invalid_id)
    (hge : version h ≤ version e) : add ps p h v = some p := by
  rw [add_occupied ps p h v e hs hne]
  have : ¬ version h > version e := by omega
  simp [this]

/-- C12 at a concrete input: the pool holding `id(3, 2)` and `add(id(3, 1), 9)`. -/
theorem duplicate_insert_no_mutation_witness :
    sparse_at 1024 (onePool 1024).sparse (id 3 1) = some (id 0 2) ∧
    id 0 2 ≠ invalid_id ∧ version (id 3 1) ≤ version (id 0 2) ∧
    add 1024 (onePool 1024) (id 3 1) 9 = some (onePool 1024) :=
  ⟨by decide, by decide, by decide,
    duplicate_insert_no_mutation 1024 (onePool 1024) (id 3 1) 9 (id 0 2) (by decide)
      (by decide) (by decide)⟩

/-- C14: for every pool and every handle `h` for which `get(h)` is `nullptr`,
`remove(h)` returns and leaves `sparse`, `dense` and `data` unchanged; and on
the empty pool `get(k)` is `nullptr` for every handle `k`. -/
theorem noop_safety (ps : Nat) (p : ComponentPool V) (h : Nat)
    (hg : ComponentPool.get ps p h = Access.null) :
    remove ps p h = some p ∧
    ∀ k, ComponentPool.get ps (ComponentPool.empty : ComponentPool V) k = Access.null := by
  constructor
  · rcases valid_cases ps p.sparse h with hv | ⟨r, hs, hne, hv⟩
    · exact remove_invalid ps p h hv
    · exfalso
      have hval : valid (some r) (version h) = true := (valid_some r _).2 ⟨hne, hv⟩
      unfold ComponentPool.get at hg
      simp only [hs, hval, if_true] at hg
      split at hg <;> cases hg
  · intro k
    simp [ComponentPool.get, ComponentPool.empty, sparse_at, Sparse.find, valid]

/-- C14 at a concrete input: `remove(id(3, 1))`, a stale generation, on the pool
holding `id(3, 2)`. -/
theorem noop_safety_witness :
    ComponentPool.get 1024 (onePool 1024) (id 3 1) = Access.null ∧
    remove 1024 (onePool 1024) (id 3 1) = some (onePool 1024) :=
  ⟨by decide, (noop_safety 1024 (onePool 1024) (id 3 1) (by decide)).1⟩

/-- C15: for all `i` and `v` in `[0, 65535]`, `index(id(i, v)) == i` and
`version(id(i, v)) == v`; `id(i, v)` is the 32 bit value `v * 2^16 + i`. -/
theorem handle_round_trip (i v : Nat) (hi : i ≤ 65535) (hv : v ≤ 65535) :
    index (id i v) = i ∧ version (id i v) = v ∧ id i v = v * 65536 + i ∧
      id i v < 4294967296 := by
  refine ⟨?_, ?_, ?_, ?_⟩
  · rw [index_id]; omega
  · rw [version_id]; omega
  · rw [id_eq]; omega
  · rw [id_eq]; omega

/-- C15 at a concrete input: `i = 65535`, `v = 65535`. -/
theorem handle_round_trip_witness :
    index (id 65535 65535) = 65535 ∧ version (id 65535 65535) = 65535 ∧
      id 65535 65535 = 65535 * 65536 + 65535 ∧ id 65535 65535 < 4294967296 :=
  handle_round_trip 65535 65535 (by decide) (by decide)

/-- C19: for every pool, the state after `clear(); clear()` is the state after
a single `clear()`. -/
theorem clear_idempotent (p : ComponentPool V) : clear (clear p) = clear p := rfl

/-- C13: for every pool satisfying the consistency invariant and every handle
`h` whose slot is occupied, holding position `index e`, with a stored
generation strictly less than the generation of `h`: `add(h, v)` returns,
`size()` is unchanged, the slot still holds the same position, the stored
generation is the generation of `h`, `data` holds `v` at that position,
`get(h)` returns `v`, and `get` of every handle with the same index and the
old generation returns `nullptr`. -/
theorem resurrection (ps : Nat) (p : ComponentPool V) (h : Nat) (v : V) (e : Nat)
    (hc : Consistent ps p) (hs : sparse_at ps p.sparse h = some e) (hne : e ≠ invalid_id)
    (hlt : version e < version h) :
    ∃ q, add ps p h v = some q ∧ size q = size p ∧
      (∃ e1, sparse_at ps q.sparse h = some e1 ∧ index e1 = index e ∧
        version e1 = version h) ∧
      q.data[index e]? = some v ∧
      ComponentPool.get ps q h = Access.value v ∧
      ∀ k, index k = index h → version k = version e →
        ComponentPool.get ps q k = Access.null := by
  obtain ⟨hpos, _⟩ := hc.fwd (index h) e (index_lt h)
    (by rw [sparse_at_index]; exact hs) hne
  have hd : index e < p.data.length := by rw [hc.len]; exact hpos
  have hadd := add_occupied ps p h v e hs hne
  have hgt : version h > version e := hlt
  simp only [hgt, if_true, hd, hpos, and_self] at hadd
  have hslot : sparse_at ps (Sparse.store ps p.sparse (index h) (id (index e) (version h))) h
      = some (id (index e) (version h)) := by
    rw [sparse_at_store]
    simp [index_index, sparse_at_index, hs]
  have hi : index (id (index e) (version h)) = index e := by
    rw [index_id]; exact Nat.mod_eq_of_lt (index_lt e)
  have hver : version (id (index e) (version h)) = version h := by
    rw [version_id]; exact Nat.mod_eq_of_lt (version_lt h)
  have hnew : id (index e) (version h) ≠ invalid_id := by
    rw [Ne, id_eq_invalid_iff, Nat.mod_eq_of_lt (version_lt h)]
    omega
  have hdata : (p.data.set (index e) v)[index e]? = some v := by
    rw [List.getElem?_set]; simp [hd]
  refine ⟨_, hadd, ?_, ⟨_, hslot, hi, hver⟩, hdata, ?_, ?_⟩
  · simp [size]
  · have hval : valid (some (id (index e) (version h))) (version h) = true :=
      (valid_some _ _).2 ⟨hnew, hver⟩
    unfold ComponentPool.get
    simp only [hslot, hval, if_true, hi, hdata]
  · intro k hk hkv
    have hval : valid (some (id (index e) (version h))) (version k) = false := by
      cases hvv : valid (some (id (index e) (version h))) (version k) with
      | false => rfl
      | true =>
        have := ((valid_some _ _).1 hvv).2
        rw [hver, hkv] at this
        omega
    unfold ComponentPool.get
    simp only [sparse_at_congr ps _ hk, hslot, hval]
    simp

/-- C13 at a concrete input: the pool holding `id(3, 2)` and `add(id(3, 5), 9)`. -/
theorem resurrection_witness :
    Consistent 1024 (onePool 1024) ∧
    sparse_at 1024 (onePool 1024).sparse (id 3 5) = some (id 0 2) ∧
    id 0 2 ≠ invalid_id ∧ version (id 0 2) < version (id 3 5) ∧
    ∃ q, add 1024 (onePool 1024) (id 3 5) 9 = some q ∧ size q = size (onePool 1024) ∧
      (∃ e1, sparse_at 1024 q.sparse (id 3 5) = some e1 ∧ index e1 = index (id 0 2) ∧
        version e1 = version (id 3 5)) ∧
      q.data[index (id 0 2)]? = some 9 ∧
      ComponentPool.get 1024 q (id 3 5) = Access.value 9 ∧
      ∀ k, index k = index (id 3 5) → version k = version (id 0 2) →
        ComponentPool.get 1024 q k = Access.null :=
  ⟨onePool_consistent 1024, by decide, by decide, by decide,
    resurrection 1024 (onePool 1024) (id 3 5) 9 (id 0 2) (onePool_consistent 1024)
      (by decide) (by decide) (by decide)⟩

theorem factorial_eq (n : Nat) (hn : n ≤ 20) : factorial n = Nat.factorial n := by
  induction n with
  | zero => rfl
  | succ n ih =>
    have h1 := ih (by omega)
    have h2 : Nat.factorial (n + 1) ≤ Nat.factorial 20 := Nat.factorial_le hn
    have h3 : Nat.factorial 20 < 18446744073709551616 := by decide
    unfold factorial
    rw [h1, ← Nat.factorial_succ]
    exact Nat.mod_eq_of_lt (by omega)

/-- C20 refuted above the range of 64 bits: `binomial<21, 1>()` is `5`, not
`C(21, 1) = 21`, because `factorial<21>()` is `21!` modulo `2^64`; and
`binomial<66, 0>()` divides by `factorial<66>()`, which is `0`. -/
theorem binomial_overflows :
    binomial 21 1 = some 5 ∧ Nat.choose 21 1 = 21 ∧
    factorial 21 = 14197454024290336768 ∧ binomial 66 0 = none := by
  decide

/-- C20 as amended: for all `N <= 20` and `K <= N`, `binomial<N, K>()` returns the
binomial coefficient `C(N, K)`. -/
theorem binomial_eq_choose (n k : Nat) (hn : n ≤ 20) (hk : k ≤ n) :
    binomial n k = some (Nat.choose n k) := by
  have h3 : Nat.factorial 20 < 18446744073709551616 := by decide
  have hle : Nat.factorial n ≤ Nat.factorial 20 := Nat.factorial_le hn
  have hdvd := Nat.factorial_mul_factorial_dvd_factorial hk
  have hpos : 0 < Nat.factorial k * Nat.factorial (n - k) :=
    Nat.mul_pos (Nat.factorial_pos k) (Nat.factorial_pos (n - k))
  have hprod : Nat.factorial k * Nat.factorial (n - k) ≤ Nat.factorial n :=
    Nat.le_of_dvd (Nat.factorial_pos n) hdvd
  unfold binomial
  rw [factorial_eq n hn, factorial_eq k (by omega), factorial_eq (n - k) (by omega)]
  rw [Nat.mod_eq_of_lt (by omega)]
  simp only [Nat.ne_of_gt hpos, if_false]
  rw [Nat.choose_eq_factorial_div_factorial hk]

/-- C20 at a concrete input: `binomial<4, 2>()` is `C(4, 2) = 6`. -/
theorem binomial_eq_choose_witness :
    binomial 4 2 = some (Nat.choose 4 2) ∧ Nat.choose 4 2 = 6 :=
  ⟨binomial_eq_choose 4 2 (by decide) (by decide), by decide⟩

/-- The values the test `combinatory numbers` checks. -/
theorem binomial_test_values :
    [binomial 0 0, binomial 1 0, binomial 1 1, binomial 2 0, binomial 2 1, binomial 2 2,
      binomial 3 0, binomial 3 1, binomial 3 2, binomial 3 3,
      binomial 4 0, binomial 4 1, binomial 4 2, binomial 4 3, binomial 4 4]
      = [some 1, some 1, some 1, some 1, some 2, some 1, some 1, some 3, some 3, some 1,
        some 1, some 4, some 6, some 4, some 1] := by
  decide

theorem cpool_free (s : Scene V) (t : Nat) :
    (Scene.cpool s t).1.free_entities = s.free_entities := by
  unfold Scene.cpool
  split <;> rfl

theorem addComponents_free (ps : Nat) (e : Nat) (components : List (Nat × V))
    (s s1 : Scene V) (h : Scene.addComponents ps e components s = some s1) :
    s1.free_entities = s.free_entities := by
  induction components generalizing s with
  | nil =>
    simp only [Scene.addComponents] at h
    cases h; rfl
  | cons tc rest ih =>
    obtain ⟨t, c⟩ := tc
    simp only [Scene.addComponents] at h
    split at h
    · cases h
    · have := ih _ h
      rw [this]
      exact cpool_free s t

theorem add_allocate (ps : Nat) (s s1 : Scene V) (components : List (Nat × V)) (e : Nat)
    (h : Scene.add ps s components = some (e, s1)) :
    Scene.allocate s.free_entities = some (e, s1.free_entities) := by
  unfold Scene.add at h
  split at h
  · cases h
  · rename_i e0 free ha
    split at h
    · cases h
    · rename_i s2 hc
      cases h
      rw [ha, addComponents_free ps _ _ _ _ hc]

theorem allocate_single (c : Nat) :
    Scene.allocate [c] = some (c, [(c + 1) % 4294967296]) := by
  simp [Scene.allocate]

theorem allocate_front (f : Nat) (rest : List Nat) (c : Nat) :
    Scene.allocate (f :: (rest ++ [c])) = some (f, rest ++ [c]) := by
  simp [Scene.allocate]

theorem version_of_lt {x : Nat} (h : x < 65536) : version x = 0 := by
  rw [version_eq]; omega

theorem history_inv (ps : Nat) (s : Scene V) (live returned freed : List Nat) (issued : Nat)
    (hist : History ps s live returned freed issued) :
    ∃ front c, s.free_entities = front ++ [c] ∧
      (∀ h ∈ live, h ∈ returned) ∧
      (∀ e ∈ front, ∃ h ∈ freed, e = id (index h) (version h + 1)) ∧
      (issued ≤ 65535 →
        c = issued ∧ (∀ r ∈ returned, index r < issued) ∧
        ∀ e ∈ front, index e < issued) := by
  induction hist with
  | fresh =>
    refine ⟨[], id 0 0, rfl, ?_, ?_, ?_⟩
    · intro h hh; cases hh
    · intro e he; cases he
    · intro _
      exact ⟨by decide, fun r hr => (by cases hr), fun e he => (by cases he)⟩
  | add s live returned freed issued components e s1 _ hadd ih =>
    obtain ⟨front, c, hfree, hlive, hfreed, hinv⟩ := ih
    have halloc := add_allocate ps s s1 components e hadd
    rw [hfree] at halloc
    have hlive1 : ∀ h ∈ e :: live, h ∈ e :: returned := by
      intro h hh
      rcases List.mem_cons.1 hh with hhe | hh
      · rw [hhe]; exact List.mem_cons_self _ _
      · exact List.mem_cons_of_mem _ (hlive h hh)
    cases front with
    | nil =>
      rw [List.nil_append, allocate_single] at halloc
      have h1 := Option.some.inj halloc
      have he : c = e := congrArg Prod.fst h1
      have hf : [(c + 1) % 4294967296] = s1.free_entities := congrArg Prod.snd h1
      have hlen : ¬ s.free_entities.length > 1 := by rw [hfree]; simp
      rw [if_neg hlen]
      refine ⟨[], (c + 1) % 4294967296, (by rw [← hf]; rfl), hlive1,
        (fun x hx => by cases hx), ?_⟩
      intro hn
      obtain ⟨hc, hret, _⟩ := hinv (by omega)
      refine ⟨?_, ?_, fun x hx => (by cases hx)⟩
      · rw [hc]; exact Nat.mod_eq_of_lt (by omega)
      · intro r hr
        rcases List.mem_cons.1 hr with hre | hr
        · rw [hre, ← he, hc, index_of_lt (by omega)]
          omega
        · have := hret r hr
          omega
    | cons f rest =>
      rw [List.cons_append, allocate_front] at halloc
      have h1 := Option.some.inj halloc
      have he : f = e := congrArg Prod.fst h1
      have hf : rest ++ [c] = s1.free_entities := congrArg Prod.snd h1
      have hlen : s.free_entities.length > 1 := by rw [hfree]; simp
      rw [if_pos hlen]
      refine ⟨rest, c, hf.symm, hlive1,
        (fun x hx => hfreed x (List.mem_cons_of_mem _ hx)), ?_⟩
      intro hn
      obtain ⟨hc, hret, hfront⟩ := hinv hn
      refine ⟨hc, ?_, fun x hx => hfront x (List.mem_cons_of_mem _ hx)⟩
      intro r hr
      rcases List.mem_cons.1 hr with hre | hr
      · rw [hre, ← he]
        exact hfront f (List.mem_cons_self _ _)
      · exact hret r hr
  | remove s live returned freed issued h s1 _ hmem hrem ih =>
    obtain ⟨front, c, hfree, hlive, hfreed, hinv⟩ := ih
    have hf := remove_free ps s s1 h hrem
    rw [hfree] at hf
    refine ⟨id (index h) (version h + 1) :: front, c, (by rw [hf]; rfl), ?_, ?_, ?_⟩
    · intro x hx
      exact hlive x (List.mem_of_mem_erase hx)
    · intro x hx
      rcases List.mem_cons.1 hx with hxe | hx
      · exact ⟨h, List.mem_cons_self _ _, hxe⟩
      · obtain ⟨k, hk, hke⟩ := hfreed x hx
        exact ⟨k, List.mem_cons_of_mem _ hk, hke⟩
    · intro hn
      obtain ⟨hc, hret, hfront⟩ := hinv hn
      refine ⟨hc, hret, ?_⟩
      intro x hx
      rcases List.mem_cons.1 hx with hxe | hx
      · rw [hxe, index_id, Nat.mod_eq_of_lt (index_lt h)]
        exact hret h (hlive h hmem)
      · exact hfront x hx

theorem spawn_from (ps n k : Nat) (h : k + n < 4294967296) :
    spawn ps n (⟨[], [k]⟩ : Scene Nat) = some ⟨[], [k + n]⟩ := by
  induction n generalizing k with
  | zero => rfl
  | succ n ih =>
    have h1 : Scene.add ps (⟨[], [k]⟩ : Scene Nat) [] = some (k, ⟨[], [k + 1]⟩) := by
      have : (k + 1) % 4294967296 = k + 1 := Nat.mod_eq_of_lt (by omega)
      simp [Scene.add, Scene.allocate, Scene.addComponents, this]
    unfold spawn
    rw [h1]
    simp only [Option.some_bind]
    rw [ih (k + 1) (by omega)]
    have : k + 1 + n = k + (n + 1) := by omega
    rw [this]

theorem spawn_fresh (ps n : Nat) (h : n < 4294967296) :
    spawn ps n (Scene.fresh : Scene Nat) = some ⟨[], [n]⟩ := by
  have h0 : (Scene.fresh : Scene Nat) = ⟨[], [0]⟩ := by
    have : id 0 0 = 0 := by decide
    simp [Scene.fresh, this]
  rw [h0, spawn_from ps n 0 (by omega)]
  simp

theorem freedScene_history :
    History 1024 (freedScene 1024) [id 1 0] [id 1 0, id 0 0] [id 0 0] 2 :=
  History.remove (twoEntityScene 1024) [id 1 0, id 0 0] [id 1 0, id 0 0] [] 2 (id 0 0)
    (freedScene 1024)
    (History.add (oneEntityScene 1024) [id 0 0] [id 0 0] [] 1 [(1, 4)] (id 1 0)
      (twoEntityScene 1024)
      (History.add Scene.fresh [] [] [] 0 [(1, 3)] (id 0 0) (oneEntityScene 1024)
        History.fresh rfl)
      rfl)
    (by decide) rfl

/-- C16 refuted at the capacity of the index: after 65535 calls of `add()` on a
fresh scene the next `add()` returns `invalid_id`; and when `remove` is called
with the handle `id(65535, 65535)`, which no `add` has returned, the next
`add()` returns `invalid_id` as well. -/
theorem sentinel_allocated :
    ((spawn 1024 65535 Scene.fresh).bind fun s => (Scene.add 1024 s []).map Prod.fst)
      = some invalid_id ∧
    ((Scene.remove 1024 (Scene.fresh : Scene Nat) (id 65535 65535)).bind fun s =>
      (Scene.add 1024 s []).map Prod.fst) = some invalid_id := by
  rw [spawn_fresh 1024 65535 (by decide)]
  decide

/-- C16 as amended: in every scene reachable from a fresh scene by `add` calls
and `remove` calls on live handles, as long as fewer than 65535 fresh indices
have been issued (`add` calls that found a single entry in `free_entities`),
whatever the number of `add` calls: every handle `add` has returned is
different from `invalid_id`, and `add` takes from the free list a handle
different from `invalid_id`, which is the handle every `add` that returns gives
back. -/
theorem sentinel_not_allocated (ps : Nat) (s : Scene V) (live returned freed : List Nat)
    (issued : Nat) (hist : History ps s live returned freed issued)
    (hn : issued < 65535) :
    (∀ r ∈ returned, r ≠ invalid_id) ∧
    ∃ e free, Scene.allocate s.free_entities = some (e, free) ∧ e ≠ invalid_id ∧
      ∀ components e1 s1, Scene.add ps s components = some (e1, s1) → e1 = e := by
  obtain ⟨front, c, hfree, _, _, hinv⟩ := history_inv ps s live returned freed issued hist
  obtain ⟨hc, hret, hfront⟩ := hinv (by omega)
  have h2 : index invalid_id = 65535 := by decide
  refine ⟨?_, ?_⟩
  · intro r hr hri
    have := hret r hr
    rw [hri, h2] at this
    omega
  have key : ∀ e free, Scene.allocate s.free_entities = some (e, free) → e ≠ invalid_id →
      ∃ e free, Scene.allocate s.free_entities = some (e, free) ∧ e ≠ invalid_id ∧
        ∀ components e1 s1, Scene.add ps s components = some (e1, s1) → e1 = e := by
    intro e free ha hne
    refine ⟨e, free, ha, hne, ?_⟩
    intro components e1 s1 hadd
    have := add_allocate ps s s1 components e1 hadd
    rw [ha] at this
    exact (congrArg Prod.fst (Option.some.inj this)).symm
  cases front with
  | nil =>
    apply key c _ (by rw [hfree, List.nil_append, allocate_single])
    rw [invalid_id_eq]
    omega
  | cons f rest =>
    apply key f _ (by rw [hfree, List.cons_append, allocate_front])
    intro hf
    have := hfront f (List.mem_cons_self _ _)
    rw [hf, h2] at this
    omega

/-- C16 at a concrete scene: after `a = add(3); b = add(4); remove(a)` two fresh
indices have been issued, `free_entities` is `id(0, 1)` followed by the counter,
and the next `add` returns the reused handle `id(0, 1)`. -/
theorem sentinel_not_allocated_witness :
    History 1024 (freedScene 1024) [id 1 0] [id 1 0, id 0 0] [id 0 0] 2 ∧
    (freedScene 1024).free_entities = [id 0 1, 2] ∧
    (Scene.add 1024 (freedScene 1024) [(1, 5)]).map Prod.fst = some (id 0 1) ∧
    (∀ r ∈ [id 1 0, id 0 0], r ≠ invalid_id) ∧
    ∃ e free, Scene.allocate (freedScene 1024).free_entities = some (e, free) ∧
      e ≠ invalid_id ∧
      ∀ components e1 s1,
        Scene.add 1024 (freedScene 1024) components = some (e1, s1) → e1 = e :=
  ⟨freedScene_history, by decide, by decide,
    sentinel_not_allocated 1024 (freedScene 1024) [id 1 0] [id 1 0, id 0 0] [id 0 0] 2
      freedScene_history (by decide)⟩

/-- C17 refuted at the capacity of the index: after 65536 calls of `add()` on a
fresh scene the only entry of `free_entities` is `id(0, 1)`, of generation 1
and of the index of `id(0, 0)`, which the first `add()` returned; and when
`remove` is called with `id(1, 0)`, which no `add` has returned, two `add()`
calls return `id(1, 1)` and `id(0, 0)` and leave the last entry `id(1, 0)`, whose
index has been returned. -/
theorem free_list_invariant_broken :
    (spawn 1024 65536 Scene.fresh).map (fun s => s.free_entities) = some [id 0 1] ∧
    version (id 0 1) = 1 ∧
    (Scene.add 1024 (Scene.fresh : Scene Nat) []).map Prod.fst = some (id 0 0) ∧
    index (id 0 1) = index (id 0 0) ∧
    ((Scene.remove 1024 (Scene.fresh : Scene Nat) (id 1 0)).bind fun s =>
      (Scene.add 1024 s []).bind fun r1 =>
        (Scene.add 1024 r1.2 []).map fun r2 => (r1.1, r2.1, r2.2.free_entities))
      = some (id 1 1, id 0 0, [id 1 0]) := by
  rw [spawn_fresh 1024 65536 (by decide)]
  decide

/-- C17 as amended: in every scene reachable from a fresh scene by `add` calls
and `remove` calls on live handles, `free_entities` is not empty and every
entry before the last is `id(index(h), version(h) + 1)` for a handle `h` that
`remove` was called with: its index is `index(h)` and its generation is
`version(h) + 1` modulo 65536, which is `version(h) + 1` when `version(h)` is
below 65535; and as long as at most 65535 fresh indices have been issued
(`add` calls that found a single entry in `free_entities`), the last entry is
the number of fresh indices issued, a handle of generation 0 whose index no
`add` has returned. -/
theorem free_list_invariant (ps : Nat) (s : Scene V) (live returned freed : List Nat)
    (issued : Nat) (hist : History ps s live returned freed issued) :
    s.free_entities ≠ [] ∧
    ∃ front c, s.free_entities = front ++ [c] ∧
      (∀ e ∈ front, ∃ h ∈ freed, e = id (index h) (version h + 1) ∧
        index e = index h ∧ version e = (version h + 1) % 65536 ∧
        (version h < 65535 → version e = version h + 1)) ∧
      (issued ≤ 65535 →
        c = issued ∧ version c = 0 ∧ ∀ r ∈ returned, index r ≠ index c) := by
  obtain ⟨front, c, hfree, _, hfreed, hinv⟩ :=
    history_inv ps s live returned freed issued hist
  constructor
  · rw [hfree]; simp
  · refine ⟨front, c, hfree, ?_, ?_⟩
    · intro e he
      obtain ⟨h, hh, heq⟩ := hfreed e he
      refine ⟨h, hh, heq, ?_, ?_, ?_⟩
      · rw [heq, index_id]; exact Nat.mod_eq_of_lt (index_lt h)
      · rw [heq, version_id]
      · intro hv
        rw [heq, version_id]
        exact Nat.mod_eq_of_lt (by omega)
    · intro hn
      obtain ⟨hc, hret, _⟩ := hinv hn
      refine ⟨hc, ?_, ?_⟩
      · rw [hc]; exact version_of_lt (by omega)
      · intro r hr
        have := hret r hr
        rw [hc, index_of_lt (show issued < 65536 by omega)]
        omega

/-- C17 at a concrete scene: after `a = add(3); b = add(4); remove(a)`
`free_entities` is `id(0, 1)`, the handle `id(index(a), version(a) + 1)` of the
freed `a = id(0, 0)`, followed by the counter 2. -/
theorem free_list_invariant_witness :
    History 1024 (freedScene 1024) [id 1 0] [id 1 0, id 0 0] [id 0 0] 2 ∧
    (freedScene 1024).free_entities = [id 0 1] ++ [2] ∧
    version (id 0 1) = version (id 0 0) + 1 ∧
    (freedScene 1024).free_entities ≠ [] ∧
    ∃ front c, (freedScene 1024).free_entities = front ++ [c] ∧
      (∀ e ∈ front, ∃ h ∈ [id 0 0], e = id (index h) (version h + 1) ∧
        index e = index h ∧ version e = (version h + 1) % 65536 ∧
        (version h < 65535 → version e = version h + 1)) ∧
      (2 ≤ 65535 →
        c = 2 ∧ version c = 0 ∧ ∀ r ∈ [id 1 0, id 0 0], index r ≠ index c) :=
  ⟨freedScene_history, by decide, by decide,
    free_list_invariant 1024 (freedScene 1024) [id 1 0] [id 1 0, id 0 0] [id 0 0] 2
      freedScene_history⟩

theorem store_keys (ps : Nat) (sp : Sparse) (pos val : Nat) :
    (Sparse.store ps sp pos val).map Prod.fst = sp.map Prod.fst := by
  induction sp with
  | nil => rfl
  | cons kv rest ih =>
    obtain ⟨k, arr⟩ := kv
    unfold Sparse.store
    split
    · rfl
    · simp only [List.map_cons, ih]

theorem contains_iff_mem (sp : Sparse) (k : Nat) :
    Sparse.contains sp k = true ↔ k ∈ sp.map Prod.fst := by
  induction sp with
  | nil => simp [Sparse.contains, Sparse.find]
  | cons kv rest ih =>
    obtain ⟨k1, arr⟩ := kv
    unfold Sparse.contains at ih ⊢
    by_cases hk : k1 = k
    · simp [Sparse.find, hk]
    · have hk2 : ¬ k = k1 := fun h => hk h.symm
      simp [Sparse.find, hk, hk2, ih]

theorem consistent_size_le_extent (ps : Nat) (hps : 0 < ps) (p : ComponentPool V)
    (hc : Consistent ps p) : size p ≤ extent ps p := by
  have hmaps : ∀ d ∈ p.dense.toFinset,
      (fun d => (d / ps, d % ps)) d ∈ (p.sparse.map Prod.fst).toFinset ×ˢ Finset.range ps := by
    intro d hd
    rw [List.mem_toFinset] at hd
    obtain ⟨pos, hpos⟩ := List.getElem?_of_mem hd
    obtain ⟨s, hs, _, _⟩ := hc.bwd pos d hpos
    have hcont : Sparse.contains p.sparse (index d / ps) = true := by
      cases hcc : Sparse.contains p.sparse (index d / ps) with
      | true => rfl
      | false => rw [← sparse_at_none_iff, hs] at hcc; cases hcc
    rw [index_of_lt (hc.dense_lt hpos), contains_iff_mem] at hcont
    simp only [Finset.mem_product, List.mem_toFinset, Finset.mem_range]
    exact ⟨hcont, Nat.mod_lt _ hps⟩
  have hinj : Set.InjOn (fun d => (d / ps, d % ps)) (p.dense.toFinset : Set Nat) := by
    intro a _ b _ hab
    simp only [Prod.mk.injEq] at hab
    exact (index_eq_iff ps a b).1 hab
  have h1 := Finset.card_le_card_of_injOn _ hmaps hinj
  rw [List.toFinset_card_of_nodup hc.dense_nodup, Finset.card_product,
    Finset.card_range] at h1
  have h2 : (p.sparse.map Prod.fst).toFinset.card ≤ p.sparse.length := by
    have := List.toFinset_card_le (p.sparse.map Prod.fst)
    simpa using this
  unfold size extent
  calc p.dense.length ≤ (p.sparse.map Prod.fst).toFinset.card * ps := h1
    _ ≤ p.sparse.length * ps := Nat.mul_le_mul_right ps h2

theorem add_keys (ps : Nat) (p q : ComponentPool V) (h : Nat) (v : V)
    (hadd : add ps p h v = some q) :
    q.sparse.map Prod.fst = p.sparse.map Prod.fst ∨
      (Sparse.contains p.sparse (index h / ps) = false ∧
        q.sparse.map Prod.fst = (index h / ps) :: p.sparse.map Prod.fst) := by
  by_cases he : slotEmpty ps p.sparse h
  · unfold add at hadd
    simp only at hadd
    cases hc : Sparse.contains p.sparse (index h / ps) with
    | true =>
      left
      rw [hc] at hadd
      simp only [if_true] at hadd
      split at hadd
      · cases hadd
      · split at hadd
        · cases hadd; simp only [store_keys]
        · split at hadd
          · split at hadd
            · cases hadd; simp only [store_keys]
            · cases hadd
          · cases hadd; rfl
    | false =>
      right
      refine ⟨rfl, ?_⟩
      rw [hc] at hadd
      simp only [Bool.false_eq_true, if_false] at hadd
      split at hadd
      · cases hadd
      · split at hadd
        · cases hadd; simp only [store_keys, List.map_cons]
        · split at hadd
          · split at hadd
            · cases hadd; simp only [store_keys, List.map_cons]
            · cases hadd
          · cases hadd; rfl
  · left
    cases hs : sparse_at ps p.sparse h with
    | none => exact absurd (Or.inl hs) he
    | some e =>
      have hne : e ≠ invalid_id := fun heq => he (Or.inr (by rw [hs, heq]))
      rw [add_occupied ps p h v e hs hne] at hadd
      split at hadd
      · split at hadd
        · cases hadd; simp only [store_keys]
        · cases hadd
      · cases hadd; rfl

theorem remove_keys (ps : Nat) (p q : ComponentPool V) (h : Nat)
    (hrem : remove ps p h = some q) : q.sparse.map Prod.fst = p.sparse.map Prod.fst := by
  unfold remove at hrem
  simp only at hrem
  split at hrem
  · cases hrem; rfl
  · split at hrem
    · cases hrem
    · split at hrem
      · split at hrem
        · cases hrem
        · split at hrem
          · cases hrem
            simp only [store_keys]
          · cases hrem
      · cases hrem

theorem reachable_keys (ps : Nat) (p : ComponentPool V) (hr : Reachable ps p) :
    (p.sparse.map Prod.fst).Nodup ∧ ∀ k ∈ p.sparse.map Prod.fst, k < 65535 / ps + 1 := by
  induction hr with
  | empty => simp [ComponentPool.empty]
  | add p h v q _ hadd ih =>
    rcases add_keys ps p q h v hadd with hk | ⟨hc, hk⟩
    · rw [hk]; exact ih
    · rw [hk]
      have hnot : index h / ps ∉ p.sparse.map Prod.fst := by
        intro hm
        rw [← contains_iff_mem, hc] at hm
        cases hm
      refine ⟨List.nodup_cons.2 ⟨hnot, ih.1⟩, ?_⟩
      intro k hk'
      rcases List.mem_cons.1 hk' with rfl | hk'
      · have := index_lt h
        have : index h / ps ≤ 65535 / ps := Nat.div_le_div_right (by omega)
        omega
      · exact ih.2 k hk'
  | remove p h q _ hrem ih =>
    rw [remove_keys ps p q h hrem]; exact ih

theorem reachable_extent_le (ps : Nat) (p : ComponentPool V) (hr : Reachable ps p) :
    extent ps p ≤ (65535 / ps + 1) * ps := by
  obtain ⟨hnd, hlt⟩ := reachable_keys ps p hr
  have hsub : p.sparse.map Prod.fst ⊆ List.range (65535 / ps + 1) := by
    intro k hk
    rw [List.mem_range]
    exact hlt k hk
  have hle := (List.subperm_of_subset hnd hsub).length_le
  simp only [List.length_map, List.length_range] at hle
  unfold extent
  exact Nat.mul_le_mul_right ps hle

theorem overfull_spec (ps : Nat) :
    Reachable ps (overfull ps) ∧ size (overfull ps) = 65537 := by
  obtain ⟨hr, _, hlen, _⟩ := filled_spec ps 65535 (Nat.le_refl _)
  obtain ⟨q1, hq1, hslot, hdense⟩ := add_at_capacity ps 7
  have he : slotEmpty ps q1.sparse (id 0 1) := by
    right
    rw [sparse_at_congr ps q1.sparse (show index (id 0 1) = index (id 0 0) by decide)]
    exact hslot
  obtain ⟨sp, hq2, _, _⟩ := add_fresh ps q1 (id 0 1) 8 he
  have hov : overfull ps = ⟨sp, q1.dense ++ [index (id 0 1)], q1.data ++ [8]⟩ := by
    simp only [overfull, hq1, Option.some_bind, hq2, Option.getD_some]
  rw [hov]
  refine ⟨Reachable.add _ _ _ _ (Reachable.add _ _ _ _ hr hq1) hq2, ?_⟩
  simp [size, hdense, hlen]

/-- C18 refuted twice: after `add(id(0, 0), 5); clear()` the extent is 0 and the
size is 1, because `clear` leaves `dense`; and without any `clear`, the pool
reached by 65537 `add` calls (the 65535 entities `id(1, 1) .. id(65535, 1)`,
then `id(0, 0)`, whose slot becomes the sentinel, then `id(0, 1)`) has size 65537
and an extent of at most 65536. -/
theorem extent_below_size :
    (clearedPool 1024).map (fun p => (extent 1024 p, size p)) = some (0, 1) ∧
    Reachable 1024 (overfull 1024) ∧ extent 1024 (overfull 1024) ≤ 65536 ∧
    size (overfull 1024) = 65537 := by
  obtain ⟨hr, hs⟩ := overfull_spec 1024
  exact ⟨by decide, hr, reachable_extent_le 1024 _ hr, hs⟩

/-- C18 as amended: in every pool that satisfies the dense/sparse consistency
invariant, as every pool reachable from the empty pool by `add` and `remove`
does until an `add` at size 65535 writes the sentinel, `extent() >= size()`,
for a positive page size. -/
theorem extent_ge_size (ps : Nat) (hps : 0 < ps) (p : ComponentPool V)
    (hc : Consistent ps p) : size p ≤ extent ps p :=
  consistent_size_le_extent ps hps p hc

/-- C18 at a concrete input: the pool holding only `id(3, 2)`. -/
theorem extent_ge_size_witness :
    0 < 1024 ∧ Consistent 1024 (onePool 1024) ∧
    size (onePool 1024) ≤ extent 1024 (onePool 1024) :=
  ⟨by decide, onePool_consistent 1024,
    extent_ge_size 1024 (by decide) (onePool 1024) (onePool_consistent 1024)⟩


theorem for_zero {σ : Type} (f : Nat → σ → σ) (s : σ) : for_ 0 0 f s = s := rfl

theorem for_succ {σ : Type} (n : Nat) (f : Nat → σ → σ) (s : σ) :
    for_ 0 (n + 1) f s = f n (for_ 0 n f s) := by
  unfold for_
  simp only [Nat.sub_zero]
  rw [List.range'_1_concat, List.foldl_append]
  simp

theorem flat_inj {M i j i1 j1 : Nat} (hj : j < M) (hj1 : j1 < M)
    (h : i * M + j = i1 * M + j1) : i = i1 ∧ j = j1 := by
  have hM : 0 < M := by omega
  have h1 : (i * M + j) / M = i := by
    rw [Nat.add_comm, Nat.add_mul_div_right _ _ hM, Nat.div_eq_of_lt hj]; omega
  have h2 : (i1 * M + j1) / M = i1 := by
    rw [Nat.add_comm, Nat.add_mul_div_right _ _ hM, Nat.div_eq_of_lt hj1]; omega
  have hi : i = i1 := by rw [← h1, ← h2, h]
  subst hi
  exact ⟨rfl, by omega⟩

theorem Mat.set_data {T : Type} {N M : Nat} (m : Mat T N M) (i j : Nat) (v : T) (p : Nat) :
    (m.set i j v).data p = if p = i * M + j then v else m.data p := rfl

theorem Mat.get_eq {T : Type} {N M : Nat} (m : Mat T N M) (i j : Nat) :
    m.get i j = m.data (i * M + j) := rfl

theorem dot_inner {T : Type} [Semiring T] {N K M : Nat} (a : Mat T N K) (b : Mat T K M)
    (r : Mat T N M) (i j n : Nat) (p : Nat) :
    (for_ 0 n (fun k result =>
        result.set i j (result.get i j + a.get i k * b.get k j)) r).data p =
      if p = i * M + j then
        r.data p + Finset.sum (Finset.range n) (fun k => a.get i k * b.get k j)
      else r.data p := by
  induction n generalizing p with
  | zero => simp [for_zero]
  | succ n ih =>
    simp only [for_succ]
    rw [Mat.set_data]
    by_cases hp : p = i * M + j
    · rw [if_pos hp, if_pos hp, Mat.get_eq, ih, if_pos rfl, Finset.sum_range_succ, add_assoc,
        hp]
    · rw [if_neg hp, if_neg hp, ih, if_neg hp]

theorem dot_middle {T : Type} [Semiring T] {N K M : Nat} (a : Mat T N K) (b : Mat T K M)
    (r : Mat T N M) (i n : Nat) :
    (∀ j, j < n → (for_ 0 n (fun j result =>
        for_ 0 K (fun k result =>
          result.set i j (result.get i j + a.get i k * b.get k j)) result) r).data
          (i * M + j) =
        r.data (i * M + j) + Finset.sum (Finset.range K) (fun k => a.get i k * b.get k j)) ∧
    (∀ p, (∀ j, j < n → p ≠ i * M + j) → (for_ 0 n (fun j result =>
        for_ 0 K (fun k result =>
          result.set i j (result.get i j + a.get i k * b.get k j)) result) r).data p =
        r.data p) := by
  induction n with
  | zero =>
    exact ⟨fun j hj => absurd hj (Nat.not_lt_zero j), fun p _ => by rw [for_zero]⟩
  | succ n ih =>
    obtain ⟨ih1, ih2⟩ := ih
    constructor
    · intro j hj
      simp only [for_succ]
      rw [dot_inner]
      by_cases hjn : j = n
      · subst hjn
        rw [if_pos rfl, ih2 _ (fun j1 hj1 => by omega)]
      · have hne : i * M + j ≠ i * M + n := by omega
        rw [if_neg hne]
        exact ih1 j (by omega)
    · intro p hp
      simp only [for_succ]
      rw [dot_inner, if_neg (hp n (by omega))]
      exact ih2 p (fun j hj => hp j (by omega))

theorem dot_outer {T : Type} [Semiring T] {N K M : Nat} (a : Mat T N K) (b : Mat T K M)
    (r : Mat T N M) (n : Nat) :
    (∀ i j, i < n → j < M → (for_ 0 n (fun i result =>
        for_ 0 M (fun j result =>
          for_ 0 K (fun k result =>
            result.set i j (result.get i j + a.get i k * b.get k j)) result) result) r).data
          (i * M + j) =
        r.data (i * M + j) + Finset.sum (Finset.range K) (fun k => a.get i k * b.get k j)) ∧
    (∀ p, (∀ i j, i < n → j < M → p ≠ i * M + j) → (for_ 0 n (fun i result =>
        for_ 0 M (fun j result =>
          for_ 0 K (fun k result =>
            result.set i j (result.get i j + a.get i k * b.get k j)) result) result) r).data p =
        r.data p) := by
  induction n with
  | zero =>
    exact ⟨fun i j hi _ => absurd hi (Nat.not_lt_zero i), fun p _ => by rw [for_zero]⟩
  | succ n ih =>
    obtain ⟨ih1, ih2⟩ := ih
    constructor
    · intro i j hi hj
      simp only [for_succ]
      by_cases hin : i = n
      · subst hin
        rw [(dot_middle a b _ i M).1 j hj]
        rw [ih2 _ (fun i1 j1 hi1 hj1 h => by
          have := (flat_inj hj hj1 h).1
          omega)]
      · rw [(dot_middle a b _ n M).2 _ (fun j1 hj1 h => by
          have := (flat_inj hj hj1 h).1
          omega)]
        exact ih1 i j (by omega) hj
    · intro p hp
      simp only [for_succ]
      rw [(dot_middle a b _ n M).2 p (fun j hj => hp n j (by omega) hj)]
      exact ih2 p (fun i j hi hj => hp i j (by omega) hj)

theorem dot_get {T : Type} [Semiring T] {N K M : Nat} (a : Mat T N K) (b : Mat T K M)
    (i j : Nat) (hi : i < N) (hj : j < M) :
    (dot a b).get i j = Finset.sum (Finset.range K) (fun k => a.get i k * b.get k j) := by
  unfold dot
  rw [Mat.get_eq, (dot_outer a b Mat.zero N).1 i j hi hj]
  simp [Mat.zero]

theorem transpose_inner {T : Type} {N : Nat} (a : Mat T N N) (r : Mat T N N) (i n : Nat)
    (hi : i < N) :
    (∀ j, j < n → (for_ 0 n (fun j result => result.set j i (a.get i j)) r).data (j * N + i)
        = a.get i j) ∧
    (∀ p, (∀ j, j < n → p ≠ j * N + i) →
      (for_ 0 n (fun j result => result.set j i (a.get i j)) r).data p = r.data p) := by
  induction n with
  | zero =>
    exact ⟨fun j hj => absurd hj (Nat.not_lt_zero j), fun p _ => by rw [for_zero]⟩
  | succ n ih =>
    obtain ⟨ih1, ih2⟩ := ih
    constructor
    · intro j hj
      simp only [for_succ]
      rw [Mat.set_data]
      by_cases hjn : j = n
      · subst hjn; rw [if_pos rfl]
      · have hne : j * N + i ≠ n * N + i := fun h => hjn (flat_inj hi hi h).1
        rw [if_neg hne]
        exact ih1 j (by omega)
    · intro p hp
      simp only [for_succ]
      rw [Mat.set_data, if_neg (hp n (by omega))]
      exact ih2 p (fun j hj => hp j (by omega))

theorem transpose_outer {T : Type} {N : Nat} (a : Mat T N N) (r : Mat T N N) (n : Nat)
    (hn : n ≤ N) :
    (∀ i j, i < n → j < N → (for_ 0 n (fun i result =>
        for_ 0 N (fun j result => result.set j i (a.get i j)) result) r).data (j * N + i)
        = a.get i j) ∧
    (∀ p, (∀ i j, i < n → j < N → p ≠ j * N + i) → (for_ 0 n (fun i result =>
        for_ 0 N (fun j result => result.set j i (a.get i j)) result) r).data p
        = r.data p) := by
  induction n with
  | zero =>
    exact ⟨fun i j hi _ => absurd hi (Nat.not_lt_zero i), fun p _ => by rw [for_zero]⟩
  | succ n ih =>
    obtain ⟨ih1, ih2⟩ := ih (by omega)
    constructor
    · intro i j hi hj
      simp only [for_succ]
      by_cases hin : i = n
      · subst hin
        exact (transpose_inner a _ i N (by omega)).1 j hj
      · rw [(transpose_inner a _ n N (by omega)).2 _ (fun j1 hj1 h => by
          have := (flat_inj (show i < N by omega) (show n < N by omega) h).2
          omega)]
        exact ih1 i j (by omega) hj
    · intro p hp
      simp only [for_succ]
      rw [(transpose_inner a _ n N (by omega)).2 p (fun j hj => hp n j (by omega) hj)]
      exact ih2 p (fun i j hi hj => hp i j (by omega) hj)

theorem transpose_get {T : Type} [Zero T] {N : Nat} (a : Mat T N N) (i j : Nat)
    (hi : i < N) (hj : j < N) : (transpose a).get j i = a.get i j := by
  unfold transpose
  rw [Mat.get_eq]
  exact (transpose_outer a Mat.zero N (Nat.le_refl N)).1 i j hi hj

theorem identity_loop {T : Type} [One T] {N : Nat} (r : Mat T N N) (n : Nat) (hn : n ≤ N) :
    (∀ i, i < n → (for_ 0 n (fun i result => result.set i i 1) r).data (i * N + i) = 1) ∧
    (∀ p, (∀ i, i < n → p ≠ i * N + i) →
      (for_ 0 n (fun i result => result.set i i 1) r).data p = r.data p) := by
  induction n with
  | zero =>
    exact ⟨fun i hi => absurd hi (Nat.not_lt_zero i), fun p _ => by rw [for_zero]⟩
  | succ n ih =>
    obtain ⟨ih1, ih2⟩ := ih (by omega)
    constructor
    · intro i hi
      simp only [for_succ]
      rw [Mat.set_data]
      by_cases hin : i = n
      · subst hin; rw [if_pos rfl]
      · have hne : i * N + i ≠ n * N + n := fun h =>
          hin (flat_inj (show i < N by omega) (show n < N by omega) h).1
        rw [if_neg hne]
        exact ih1 i (by omega)
    · intro p hp
      simp only [for_succ]
      rw [Mat.set_data, if_neg (hp n (by omega))]
      exact ih2 p (fun i hi => hp i (by omega))

theorem identity_get {T : Type} [Zero T] [One T] {N : Nat} (i j : Nat) (hi : i < N)
    (hj : j < N) : (identity T N).get i j = if i = j then 1 else 0 := by
  unfold identity
  rw [Mat.get_eq]
  by_cases hij : i = j
  · subst hij
    rw [if_pos rfl]
    exact (identity_loop Mat.zero N (Nat.le_refl N)).1 i hi
  · rw [if_neg hij, (identity_loop Mat.zero N (Nat.le_refl N)).2 _ (fun k hk h => by
      have := flat_inj hj hk h
      omega)]
    rfl

theorem compare_inner {T : Type} {N M : Nat} (a b : Mat T N M) (op : T → T → Bool)
    (i n : Nat) (r : Bool) :
    for_ 0 n (fun j result => result && op (a.get i j) (b.get i j)) r = true ↔
      r = true ∧ ∀ j, j < n → op (a.get i j) (b.get i j) = true := by
  induction n with
  | zero => simp [for_zero]
  | succ n ih =>
    simp only [for_succ, Bool.and_eq_true, ih]
    constructor
    · rintro ⟨⟨hr, h1⟩, h2⟩
      refine ⟨hr, fun j hj => ?_⟩
      by_cases hjn : j = n
      · subst hjn; exact h2
      · exact h1 j (by omega)
    · rintro ⟨hr, h⟩
      exact ⟨⟨hr, fun j hj => h j (by omega)⟩, h n (by omega)⟩

theorem compare_outer {T : Type} {N M : Nat} (a b : Mat T N M) (op : T → T → Bool)
    (n : Nat) (r : Bool) :
    for_ 0 n (fun i result =>
        for_ 0 M (fun j result => result && op (a.get i j) (b.get i j)) result) r = true ↔
      r = true ∧ ∀ i j, i < n → j < M → op (a.get i j) (b.get i j) = true := by
  induction n with
  | zero => simp [for_zero]
  | succ n ih =>
    simp only [for_succ, compare_inner, ih]
    constructor
    · rintro ⟨⟨hr, h1⟩, h2⟩
      refine ⟨hr, fun i j hi hj => ?_⟩
      by_cases hin : i = n
      · subst hin; exact h2 j hj
      · exact h1 i j (by omega) hj
    · rintro ⟨hr, h⟩
      exact ⟨⟨hr, fun i j hi hj => h i j (by omega) hj⟩, fun j hj => h n j (by omega) hj⟩

theorem Mat.eq_iff {T : Type} [DecidableEq T] {N M : Nat} (a b : Mat T N M) :
    Mat.eq a b = true ↔ ∀ i j, i < N → j < M → a.get i j = b.get i j := by
  have h := compare_outer a b (fun x y => decide (x = y)) N true
  unfold Mat.eq compare_op
  rw [h]
  simp

theorem dot_identity_get {T : Type} [Semiring T] {N : Nat} (a : Mat T N N) (i j : Nat)
    (hi : i < N) (hj : j < N) :
    (dot a (identity T N)).get i j = a.get i j ∧
      (dot (identity T N) a).get i j = a.get i j := by
  constructor
  · rw [dot_get a _ i j hi hj]
    have h1 : ∀ k ∈ Finset.range N, a.get i k * (identity T N).get k j
        = if k = j then a.get i k else 0 := by
      intro k hk
      rw [identity_get k j (Finset.mem_range.1 hk) hj]
      by_cases hkj : k = j <;> simp [hkj]
    rw [Finset.sum_congr rfl h1, Finset.sum_ite_eq']
    simp [hj]
  · rw [dot_get _ a i j hi hj]
    have h1 : ∀ k ∈ Finset.range N, (identity T N).get i k * a.get k j
        = if i = k then a.get k j else 0 := by
      intro k hk
      rw [identity_get i k hi (Finset.mem_range.1 hk)]
      by_cases hik : i = k <;> simp [hik]
    rw [Finset.sum_congr rfl h1, Finset.sum_ite_eq]
    simp [hi]

/-- C21: for all matrices `a` of size `N x K` and `b` of size `K x M` over the
integers (over any semiring), every entry `(i, j)` of `dot(a, b)` and of `a * b`
is the sum over `k` in `[0, K)` of `a(i, k) * b(k, j)`. -/
theorem dot_eq_sum {T : Type} [Semiring T] {N K M : Nat} (a : Mat T N K) (b : Mat T K M)
    (i j : Nat) (hi : i < N) (hj : j < M) :
    (dot a b).get i j = Finset.sum (Finset.range K) (fun k => a.get i k * b.get k j) ∧
    (Mat.mul a b).get i j = Finset.sum (Finset.range K) (fun k => a.get i k * b.get k j) :=
  ⟨dot_get a b i j hi hj, dot_get a b i j hi hj⟩

/-- C21 on the matrices of the test: entry `(1, 1)` of the 2x3 matrix
`{1,2,3,4,5,6}` times the 3x2 matrix `{6,5,4,3,2,1}` is the sum `4*5 + 5*3 + 6*1`,
and the product is `{20,14,56,41}`. -/
theorem dot_eq_sum_witness :
    ((dot testA testB).get 1 1
        = Finset.sum (Finset.range 3) (fun k => testA.get 1 k * testB.get k 1) ∧
      (Mat.mul testA testB).get 1 1
        = Finset.sum (Finset.range 3) (fun k => testA.get 1 k * testB.get k 1)) ∧
    Mat.eq (Mat.mul testA testB) (Mat.ofList [20, 14, 56, 41]) = true :=
  ⟨dot_eq_sum testA testB 1 1 (by decide) (by decide), by decide⟩

/-- C22: for every `N` and every `N x N` matrix `a` over the integers (over any
semiring), `identity<T, N>()` has 1 on the diagonal and 0 elsewhere, and
`a * identity<T, N>() == a` and `identity<T, N>() * a == a`. -/
theorem identity_neutral {T : Type} [Semiring T] [DecidableEq T] (N : Nat)
    (a : Mat T N N) :
    (∀ i j, i < N → j < N → (identity T N).get i j = if i = j then 1 else 0) ∧
    Mat.eq (Mat.mul a (identity T N)) a = true ∧
    Mat.eq (Mat.mul (identity T N) a) a = true := by
  refine ⟨fun i j hi hj => identity_get i j hi hj, ?_, ?_⟩
  · rw [Mat.eq_iff]
    intro i j hi hj
    exact (dot_identity_get a i j hi hj).1
  · rw [Mat.eq_iff]
    intro i j hi hj
    exact (dot_identity_get a i j hi hj).2

/-- C22 on the values of the tests: `identity<int, 3>()` is `{1,0,0,0,1,0,0,0,1}`,
and `{1,2,3,4}` times the 2x2 identity is `{1,2,3,4}`. -/
theorem identity_neutral_witness :
    Mat.eq (identity Int 3) (Mat.ofList [1, 0, 0, 0, 1, 0, 0, 0, 1]) = true ∧
    Mat.eq (Mat.mul (Mat.ofList [1, 2, 3, 4] : Mat Int 2 2) (identity Int 2))
      (Mat.ofList [1, 2, 3, 4]) = true :=
  ⟨by decide, (identity_neutral 2 (Mat.ofList [1, 2, 3, 4] : Mat Int 2 2)).2.1⟩

/-- C23: for every square matrix `a` and all `i`, `j`, entry `(j, i)` of
`transpose(a)` is entry `(i, j)` of `a`, and `transpose(transpose(a)) == a`. -/
theorem transpose_involution {T : Type} [Zero T] [DecidableEq T] (N : Nat)
    (a : Mat T N N) :
    (∀ i j, i < N → j < N → (transpose a).get j i = a.get i j) ∧
    Mat.eq (transpose (transpose a)) a = true := by
  refine ⟨fun i j hi hj => transpose_get a i j hi hj, ?_⟩
  rw [Mat.eq_iff]
  intro i j hi hj
  rw [transpose_get (transpose a) j i hj hi, transpose_get a i j hi hj]

/-- C23 on the values of the test: `transpose({1,2,3,4}) == {1,3,2,4}`, and
transposing twice gives `{1,2,3,4}` back. -/
theorem transpose_involution_witness :
    Mat.eq (transpose (Mat.ofList [1, 2, 3, 4] : Mat Int 2 2)) (Mat.ofList [1, 3, 2, 4])
      = true ∧
    Mat.eq (transpose (transpose (Mat.ofList [1, 2, 3, 4] : Mat Int 2 2)))
      (Mat.ofList [1, 2, 3, 4]) = true :=
  ⟨by decide, (transpose_involution 2 (Mat.ofList [1, 2, 3, 4] : Mat Int 2 2)).2⟩

theorem binomial_small :
    binomial 0 0 = some 1 ∧ binomial 1 0 = some 1 ∧ binomial 3 1 = some 3 ∧
    binomial 2 1 = some 2 ∧ binomial 3 0 = some 1 ∧ binomial 2 0 = some 1 ∧
    binomial 5 2 = some 10 ∧ binomial 5 1 = some 5 ∧ binomial 4 2 = some 6 ∧
    binomial 5 0 = some 1 := by
  decide

/-- C24: in exact rational arithmetic, for every `x` and `c = clamp(x, 0, 1)`:
`smoothstep<0>(x) == c`, `smoothstep<1>(x) == c*c*(3 - 2*c)` and
`smoothstep<2>(x) == c*c*c*(c*(6*c - 15) + 10)`. -/
theorem smoothstep_low_orders (x : ℚ) :
    smoothstep 0 x = some (clamp x 0 1) ∧
    smoothstep 1 x = some (clamp x 0 1 * clamp x 0 1 * (3 - 2 * clamp x 0 1)) ∧
    smoothstep 2 x = some (clamp x 0 1 * clamp x 0 1 * clamp x 0 1 *
      (clamp x 0 1 * (6 * clamp x 0 1 - 15) + 10)) := by
  obtain ⟨b00, b10, b31, b21, b30, b20, b52, b51, b42, b50⟩ := binomial_small
  refine ⟨?_, ?_, ?_⟩
  · simp only [smoothstep, for_succ, for_zero, Option.some_bind, b00, b10, Option.map_some',
      pow, Nat.reduceMul, Nat.reduceMod, Nat.reduceAdd, Nat.reduceSub]
    congr 1
    push_cast
    ring
  · simp only [smoothstep, for_succ, for_zero, Option.some_bind, b10, b31, b21, b30,
      Option.map_some', pow, Nat.reduceMul, Nat.reduceMod, Nat.reduceAdd, Nat.reduceSub]
    congr 1
    push_cast
    ring
  · simp only [smoothstep, for_succ, for_zero, Option.some_bind, b20, b52, b31, b51, b42, b50,
      Option.map_some', pow, Nat.reduceMul, Nat.reduceMod, Nat.reduceAdd, Nat.reduceSub]
    congr 1
    push_cast
    ring

/-- C25 refuted when the entity removed is the last one: in the pool holding
only `id(3, 2)`, `get` resolves the handle at dense position 0 of `dense = {3}`;
after `remove(id(3, 2))` the slot of the entity formerly at the last position,
index 3, is the sentinel, whose index field is 65535 and not 0. -/
theorem swap_remove_last_slot :
    sparse_at 1024 (onePool 1024).sparse (id 3 2) = some (id 0 2) ∧
    index (id 0 2) = 0 ∧ (onePool 1024).dense = [3] ∧
    ((remove 1024 (onePool 1024) (id 3 2)).bind fun q =>
      (sparse_at 1024 q.sparse 3).map fun s => (s, index s)) = some (invalid_id, 65535) := by
  decide

/-- C25 as amended: in every pool satisfying the consistency invariant with
`n = size()` elements, for every handle `h` that `get` resolves through the
slot `r` at dense position `index r`, `remove(h)` returns and after it: `dense`
and `data` have length `n - 1`; for every `k < n - 1` other than `index r`,
`dense[k]` and `data[k]` are unchanged; if `index r < n - 1`, `dense` and `data`
hold at `index r` the former `dense[n-1]` and `data[n-1]`, and the slot of the
entity formerly at position `n - 1` holds position `index r`; and the slot of
`index(h)` is the sentinel. -/
theorem swap_remove_packed (ps : Nat) (p : ComponentPool V) (h r : Nat)
    (hc : Consistent ps p) (hs : sparse_at ps p.sparse h = some r) (hne : r ≠ invalid_id)
    (hv : version r = version h) :
    ∃ q, remove ps p h = some q ∧
      q.dense.length = size p - 1 ∧ q.data.length = size p - 1 ∧
      (∀ k, k < size p - 1 → k ≠ index r →
        q.dense[k]? = p.dense[k]? ∧ q.data[k]? = p.data[k]?) ∧
      (index r < size p - 1 →
        q.dense[index r]? = p.dense[size p - 1]? ∧
        q.data[index r]? = p.data[size p - 1]? ∧
        ∃ l s, p.dense[size p - 1]? = some l ∧ sparse_at ps q.sparse l = some s ∧
          index s = index r) ∧
      sparse_at ps q.sparse h = some invalid_id := by
  obtain ⟨q, l, hrem, hlast, hdl, hxl, hdget, hxget, hsp⟩ :=
    remove_valid ps p h r hc hs hne hv
  obtain ⟨_, hget⟩ := hc.fwd (index h) r (index_lt h)
    (by rw [sparse_at_index]; exact hs) hne
  have hl : p.dense[p.dense.length - 1]? = some l := by
    rw [← List.getLast?_eq_getElem?]; exact hlast
  have hlen := hc.len
  unfold size
  refine ⟨q, hrem, hdl, by rw [hxl, hlen], ?_, ?_, ?_⟩
  · intro k hk hkr
    constructor
    · rw [hdget, if_pos hk, if_neg hkr]
    · rw [hxget, if_pos (by rw [hlen]; exact hk), if_neg hkr]
  · intro hr
    refine ⟨?_, ?_, l, r, hl, ?_, rfl⟩
    · rw [hdget, if_pos hr, if_pos rfl, hl]
    · rw [hxget, if_pos (by rw [hlen]; exact hr), if_pos rfl, List.getLast?_eq_getElem?,
        hlen]
    · have hlh : index l ≠ index h := by
        intro heq
        rw [index_of_lt (hc.dense_lt hl)] at heq
        rw [← heq] at hget
        have := hc.dense_inj hget hl
        omega
      rw [hsp, if_neg hlh, if_pos rfl]
  · rw [hsp, if_pos rfl]

/-- C25 at a concrete input: `remove(id(3, 2))` on the pool holding `id(3, 2)` at
position 0 and `id(4, 0)` at position 1, the last one: `n = 2`, `p = 0 < n - 1`,
and after the call `dense` is `{4}`, `data` is `{9}` and the slot of index 4
holds position 0. -/
theorem swap_remove_packed_witness :
    Consistent 1024 (twoPool 1024) ∧
    sparse_at 1024 (twoPool 1024).sparse (id 3 2) = some (id 0 2) ∧
    id 0 2 ≠ invalid_id ∧ version (id 0 2) = version (id 3 2) ∧
    index (id 0 2) < size (twoPool 1024) - 1 ∧
    (twoPool 1024).dense = [3, 4] ∧ (twoPool 1024).data = [5, 9] ∧
    (remove 1024 (twoPool 1024) (id 3 2)).map
      (fun q => (q.dense, q.data, (sparse_at 1024 q.sparse 4).map index))
      = some ([4], [9], some 0) ∧
    ∃ q, remove 1024 (twoPool 1024) (id 3 2) = some q ∧
      q.dense.length = size (twoPool 1024) - 1 ∧ q.data.length = size (twoPool 1024) - 1 ∧
      (∀ k, k < size (twoPool 1024) - 1 → k ≠ index (id 0 2) →
        q.dense[k]? = (twoPool 1024).dense[k]? ∧ q.data[k]? = (twoPool 1024).data[k]?) ∧
      (index (id 0 2) < size (twoPool 1024) - 1 →
        q.dense[index (id 0 2)]? = (twoPool 1024).dense[size (twoPool 1024) - 1]? ∧
        q.data[index (id 0 2)]? = (twoPool 1024).data[size (twoPool 1024) - 1]? ∧
        ∃ l s, (twoPool 1024).dense[size (twoPool 1024) - 1]? = some l ∧
          sparse_at 1024 q.sparse l = some s ∧ index s = index (id 0 2)) ∧
      sparse_at 1024 q.sparse (id 3 2) = some invalid_id :=
  ⟨twoPool_consistent, by decide, by decide, by decide, by decide, by decide,
    by decide, by decide,
    swap_remove_packed 1024 (twoPool 1024) (id 3 2) (id 0 2) (twoPool_consistent)
      (by decide) (by decide) (by decide)⟩

/-- C26: in every pool satisfying the consistency invariant with
`n = size() < 65535` elements, for every handle `h` whose slot is empty and
every value `v`, `add(h, v)` returns and after it: `size() == n + 1`,
`dense[n] == index(h)`, `data[n] == v`, the slot of `index(h)` holds
`id(n, version(h))`, position `n` at the generation of `h`, the first `n`
entries of `dense` and `data` are unchanged, and `get(k)` is unchanged for every
handle `k` with `index(k) != index(h)`. -/
theorem add_appends (ps : Nat) (p : ComponentPool V) (h : Nat) (v : V)
    (hc : Consistent ps p) (hn : size p < 65535) (he : slotEmpty ps p.sparse h) :
    ∃ q, add ps p h v = some q ∧ size q = size p + 1 ∧
      q.dense[size p]? = some (index h) ∧ q.data[size p]? = some v ∧
      (sparse_at ps q.sparse h = some (id (size p) (version h)) ∧
        index (id (size p) (version h)) = size p ∧
        version (id (size p) (version h)) = version h) ∧
      (∀ k, k < size p → q.dense[k]? = p.dense[k]? ∧ q.data[k]? = p.data[k]?) ∧
      (∀ k, index k ≠ index h → ComponentPool.get ps q k = ComponentPool.get ps p k) := by
  obtain ⟨sp, hadd, hslot, hother⟩ := add_fresh ps p h v he
  have hlen := hc.len
  unfold size at hn ⊢
  refine ⟨_, hadd, by simp, by simp, by simp [← hlen], ⟨hslot, ?_, ?_⟩, ?_, ?_⟩
  · rw [index_id]; exact Nat.mod_eq_of_lt (by omega)
  · rw [version_id]; exact Nat.mod_eq_of_lt (version_lt h)
  · intro k hk
    constructor
    · simp only
      rw [List.getElem?_append_left hk]
    · simp only
      rw [List.getElem?_append_left (by rw [hlen]; exact hk)]
  · intro k hk
    unfold ComponentPool.get
    simp only
    rcases hother k hk with h1 | ⟨h1, h2⟩
    · rw [h1]
      cases hsk : sparse_at ps p.sparse k with
      | none => rfl
      | some s =>
        cases hval : valid (some s) (version k) with
        | false => rfl
        | true =>
          simp only [if_true]
          have hnes := ((valid_some s _).1 hval).1
          obtain ⟨hlt, _⟩ := hc.fwd (index k) s (index_lt k)
            (by rw [sparse_at_index]; exact hsk) hnes
          rw [List.getElem?_append_left (by rw [hlen]; exact hlt)]
    · rw [h1, h2]
      have : valid (some invalid_id) (version k) = false := by simp [valid]
      simp [this, valid]

/-- C26 at a concrete input: `add(id(4, 0), 9)` on the pool holding only
`id(3, 2)`. -/
theorem add_appends_witness :
    Consistent 1024 (onePool 1024) ∧ size (onePool 1024) < 65535 ∧
    slotEmpty 1024 (onePool 1024).sparse (id 4 0) ∧
    ∃ q, add 1024 (onePool 1024) (id 4 0) 9 = some q ∧ size q = size (onePool 1024) + 1 ∧
      q.dense[size (onePool 1024)]? = some (index (id 4 0)) ∧
      q.data[size (onePool 1024)]? = some 9 ∧
      (sparse_at 1024 q.sparse (id 4 0)
          = some (id (size (onePool 1024)) (version (id 4 0))) ∧
        index (id (size (onePool 1024)) (version (id 4 0))) = size (onePool 1024) ∧
        version (id (size (onePool 1024)) (version (id 4 0))) = version (id 4 0)) ∧
      (∀ k, k < size (onePool 1024) →
        q.dense[k]? = (onePool 1024).dense[k]? ∧ q.data[k]? = (onePool 1024).data[k]?) ∧
      (∀ k, index k ≠ index (id 4 0) →
        ComponentPool.get 1024 q k = ComponentPool.get 1024 (onePool 1024) k) :=
  ⟨onePool_consistent 1024, by decide, by decide,
    add_appends 1024 (onePool 1024) (id 4 0) 9 (onePool_consistent 1024) (by decide)
      (by decide)⟩

/-- C29: after `h = add()` on a fresh scene and `remove(h)` twice, the free list
holds `id(index(h), version(h) + 1) = id(0, 1)` twice, and the next two `add()`
calls both return `id(0, 1)`. -/
theorem double_remove_duplicates_handle :
    doubleFree 1024 = some ([id 0 1, id 0 1, id 1 0], id 0 0, id 0 1, id 0 1) ∧
    id 0 1 = id (index (id 0 0)) (version (id 0 0) + 1) := by
  decide

/-- C30: for every handle `h`, a `remove(h)` that returns pushes to the front of
`free_entities` the handle `id(index(h), version(h) + 1)`, whose index is
`index(h)` and whose generation is `(version(h) + 1) mod 65536`; for
`version(h) == 65535` it is `id(index(h), 0)`, and the next `add()` returns
it. -/
theorem generation_modular (ps : Nat) (s s1 : Scene V) (h : Nat)
    (hrem : Scene.remove ps s h = some s1) :
    s1.free_entities = id (index h) (version h + 1) :: s.free_entities ∧
    index (id (index h) (version h + 1)) = index h ∧
    version (id (index h) (version h + 1)) = (version h + 1) % 65536 ∧
    (version h = 65535 →
      id (index h) (version h + 1) = id (index h) 0 ∧
      (Scene.add ps s1 []).map Prod.fst = some (id (index h) 0)) := by
  have hf := remove_free ps s s1 h hrem
  refine ⟨hf, ?_, ?_, ?_⟩
  · rw [index_id]; exact Nat.mod_eq_of_lt (index_lt h)
  · rw [version_id]
  · intro hv
    have h0 : id (index h) (version h + 1) = id (index h) 0 := by
      rw [id_eq, id_eq, hv]
    refine ⟨h0, ?_⟩
    rw [← h0]
    exact add_nil ps s1 _ _ hf

/-- C30 at a concrete input: `remove(id(0, 65535))` on a fresh scene pushes
`id(0, 0)`, and the next `add()` returns `id(0, 0)`. -/
theorem generation_modular_witness :
    Scene.remove 1024 (Scene.fresh : Scene Nat) (id 0 65535)
      = some ⟨[], [id 0 0, id 0 0]⟩ ∧
    version (id 0 65535) = 65535 ∧
    (Scene.add 1024 (⟨[], [id 0 0, id 0 0]⟩ : Scene Nat) []).map Prod.fst
      = some (id (index (id 0 65535)) 0) :=
  ⟨rfl, by decide,
    ((generation_modular 1024 (Scene.fresh : Scene Nat) ⟨[], [id 0 0, id 0 0]⟩
      (id 0 65535) rfl).2.2.2 (by decide)).2⟩

theorem findPool_mem (pools : List (Nat × ComponentPool V)) (t : Nat) (p : ComponentPool V)
    (h : Scene.findPool pools t = some p) : ∃ kp ∈ pools, kp.2 = p := by
  induction pools with
  | nil => simp [Scene.findPool] at h
  | cons kp rest ih =>
    obtain ⟨k, p1⟩ := kp
    simp only [Scene.findPool] at h
    split at h
    · cases h
      exact ⟨_, List.mem_cons_self _ _, rfl⟩
    · obtain ⟨kp, hkp, hp⟩ := ih h
      exact ⟨kp, List.mem_cons_of_mem _ hkp, hp⟩

theorem setPool_mem (pools : List (Nat × ComponentPool V)) (t : Nat) (q : ComponentPool V)
    (kp : Nat × ComponentPool V) (h : kp ∈ Scene.setPool pools t q) :
    kp ∈ pools ∨ kp.2 = q := by
  induction pools with
  | nil => simp [Scene.setPool] at h
  | cons kp1 rest ih =>
    obtain ⟨k, p1⟩ := kp1
    simp only [Scene.setPool] at h
    split at h
    · rcases List.mem_cons.1 h with h1 | h1
      · right; rw [h1]
      · left; exact List.mem_cons_of_mem _ h1
    · rcases List.mem_cons.1 h with h1 | h1
      · left; rw [h1]; exact List.mem_cons_self _ _
      · rcases ih h1 with h2 | h2
        · left; exact List.mem_cons_of_mem _ h2
        · right; exact h2

theorem add_in_round (ps : Nat) (k : Nat) (hk : k < 65535) (p : ComponentPool V) (c : V)
    (hc : Consistent ps p) (hsize : size p ≤ k + 1)
    (hemp : ∀ j, k < index j → slotEmpty ps p.sparse j)
    (hk0 : slotEmpty ps p.sparse k → size p ≤ k) :
    ∃ q, add ps p k c = some q ∧ Consistent ps q ∧ size q ≤ k + 1 ∧
      (∀ j, k < index j → slotEmpty ps q.sparse j) ∧
      (slotEmpty ps q.sparse k → size q ≤ k) := by
  have hik : index k = k := index_of_lt (by omega)
  have hvk : version k = 0 := version_of_lt (by omega)
  by_cases he : slotEmpty ps p.sparse k
  · have hn := hk0 he
    unfold size at hn
    obtain ⟨sp, hadd, hslot, hother⟩ := add_fresh ps p k c he
    obtain ⟨q, hq, hcq⟩ := add_fresh_consistent ps p k c hc he (by omega)
    rw [hadd] at hq
    have hq' := Option.some.inj hq
    refine ⟨q, by rw [hadd, hq'], hcq, ?_, ?_, ?_⟩
    · rw [← hq']; simp only [size, List.length_append, List.length_singleton]; omega
    · intro j hj
      rw [← hq']
      have hne : index j ≠ index k := by rw [hik]; omega
      rcases hother j hne with h1 | ⟨_, h2⟩
      · unfold slotEmpty; rw [h1]; exact hemp j hj
      · right; exact h2
    · intro hem
      exfalso
      rw [← hq'] at hem
      rcases hem with h1 | h1
      · rw [hslot] at h1; cases h1
      · rw [hslot] at h1
        have h2 := Option.some.inj h1
        rw [id_eq_invalid_iff] at h2
        omega
  · cases hs : sparse_at ps p.sparse k with
    | none => exact absurd (Or.inl hs) he
    | some e =>
      have hne : e ≠ invalid_id := fun heq => he (Or.inr (by rw [hs, heq]))
      have hadd := add_occupied ps p k c e hs hne
      have hnot : ¬ version k > version e := by rw [hvk]; omega
      rw [if_neg hnot] at hadd
      exact ⟨p, hadd, hc, hsize, hemp, hk0⟩

theorem addComponents_round (ps : Nat) (k : Nat) (hk : k < 65535)
    (components : List (Nat × V)) (s : Scene V)
    (hp : ∀ kp ∈ s.component_pools, Consistent ps kp.2 ∧ size kp.2 ≤ k + 1 ∧
      (∀ j, k < index j → slotEmpty ps kp.2.sparse j) ∧
      (slotEmpty ps kp.2.sparse k → size kp.2 ≤ k)) :
    ∃ s1, Scene.addComponents ps k components s = some s1 ∧
      s1.free_entities = s.free_entities ∧
      ∀ kp ∈ s1.component_pools, Consistent ps kp.2 ∧ size kp.2 ≤ k + 1 ∧
        (∀ j, k < index j → slotEmpty ps kp.2.sparse j) ∧
        (slotEmpty ps kp.2.sparse k → size kp.2 ≤ k) := by
  induction components generalizing s with
  | nil => exact ⟨s, rfl, rfl, hp⟩
  | cons tc rest ih =>
    obtain ⟨t, c⟩ := tc
    have hempty : Consistent ps (ComponentPool.empty : ComponentPool V) ∧
        size (ComponentPool.empty : ComponentPool V) ≤ k + 1 ∧
        (∀ j, k < index j → slotEmpty ps (ComponentPool.empty : ComponentPool V).sparse j) ∧
        (slotEmpty ps (ComponentPool.empty : ComponentPool V).sparse k →
          size (ComponentPool.empty : ComponentPool V) ≤ k) := by
      refine ⟨empty_consistent ps, by simp [size, ComponentPool.empty], ?_, ?_⟩
      · intro j _
        left
        simp [ComponentPool.empty, sparse_at, Sparse.find]
      · intro _
        simp [size, ComponentPool.empty]
    have hcp : (∀ kp ∈ (Scene.cpool s t).1.component_pools,
        Consistent ps kp.2 ∧ size kp.2 ≤ k + 1 ∧
        (∀ j, k < index j → slotEmpty ps kp.2.sparse j) ∧
        (slotEmpty ps kp.2.sparse k → size kp.2 ≤ k)) ∧
        (Consistent ps (Scene.cpool s t).2 ∧ size (Scene.cpool s t).2 ≤ k + 1 ∧
        (∀ j, k < index j → slotEmpty ps (Scene.cpool s t).2.sparse j) ∧
        (slotEmpty ps (Scene.cpool s t).2.sparse k → size (Scene.cpool s t).2 ≤ k)) := by
      unfold Scene.cpool
      cases hf : Scene.findPool s.component_pools t with
      | some p =>
        obtain ⟨kp, hkp, hkp2⟩ := findPool_mem _ _ _ hf
        refine ⟨hp, ?_⟩
        have := hp kp hkp
        rw [hkp2] at this
        exact this
      | none =>
        refine ⟨?_, hempty⟩
        intro kp hkp
        simp only [List.mem_append, List.mem_singleton] at hkp
        rcases hkp with hkp | hkp
        · exact hp kp hkp
        · rw [hkp]; exact hempty
    obtain ⟨hcp1, hcp2, hcp3, hcp4, hcp5⟩ := hcp
    obtain ⟨q, hq, hq1, hq2, hq3, hq4⟩ :=
      add_in_round ps k hk (Scene.cpool s t).2 c hcp2 hcp3 hcp4 hcp5
    have hstep : Scene.addComponents ps k ((t, c) :: rest) s =
        Scene.addComponents ps k rest
          { (Scene.cpool s t).1 with
            component_pools := Scene.setPool (Scene.cpool s t).1.component_pools t q } := by
      simp only [Scene.addComponents, hq]
    rw [hstep]
    obtain ⟨s1, hs1, hfree, hpools⟩ := ih
      { (Scene.cpool s t).1 with
        component_pools := Scene.setPool (Scene.cpool s t).1.component_pools t q } (by
      intro kp hkp
      rcases setPool_mem _ _ _ _ hkp with h1 | h1
      · exact hcp1 kp h1
      · rw [h1]; exact ⟨hq1, hq2, hq3, hq4⟩)
    refine ⟨s1, hs1, ?_, hpools⟩
    rw [hfree]
    exact cpool_free s t

theorem createAll_from (ps : Nat) (cs : List (List (Nat × V))) (k : Nat) (s : Scene V)
    (hfree : s.free_entities = [k])
    (hp : ∀ kp ∈ s.component_pools, Consistent ps kp.2 ∧ size kp.2 ≤ k ∧
      ∀ j, k ≤ index j → slotEmpty ps kp.2.sparse j)
    (hk : k + cs.length ≤ 65535) :
    ∃ s1, createAll ps cs s = some ((List.range' k cs.length).map (fun n => id n 0), s1) ∧
      s1.free_entities = [k + cs.length] := by
  induction cs generalizing k s with
  | nil => exact ⟨s, rfl, by simpa using hfree⟩
  | cons c cs ih =>
    simp only [List.length_cons] at hk
    have hk1 : k < 65535 := by omega
    obtain ⟨s1, hs1, hf1, hp1⟩ := addComponents_round ps k hk1 c
      { s with free_entities := [k + 1] } (by
        intro kp hkp
        obtain ⟨h1, h2, h3⟩ := hp kp hkp
        exact ⟨h1, by omega, fun j hj => h3 j (by omega), fun _ => h2⟩)
    have hadd : Scene.add ps s c = some (k, s1) := by
      unfold Scene.add
      rw [hfree, allocate_single]
      have : (k + 1) % 4294967296 = k + 1 := Nat.mod_eq_of_lt (by omega)
      simp only [this, hs1]
    obtain ⟨s2, hs2, hf2⟩ := ih (k + 1) s1 hf1 (by
      intro kp hkp
      obtain ⟨h1, h2, h3, _⟩ := hp1 kp hkp
      exact ⟨h1, h2, fun j hj => h3 j (by omega)⟩) (by omega)
    refine ⟨s2, ?_, ?_⟩
    · simp only [createAll, hadd, Option.some_bind, hs2, Option.map_some', List.length_cons,
        List.range'_succ, List.map_cons]
      have hid : id k 0 = k := by rw [id_eq]; omega
      rw [hid]
    · rw [hf2, List.length_cons]; congr 1; omega

/-- C27: on a fresh scene on which `remove` is never called, for every sequence
of at most 65535 `add` calls, with any components, every call returns, the
`(n+1)`-th call returns `id(n, 0)`, and afterwards `free_entities` is the single
entry with the raw value of the number of calls made. -/
theorem fresh_allocation_sequential (ps : Nat) (cs : List (List (Nat × V)))
    (hn : cs.length ≤ 65535) :
    ∃ s, createAll ps cs (Scene.fresh : Scene V)
        = some ((List.range cs.length).map (fun n => id n 0), s) ∧
      s.free_entities = [cs.length] := by
  have h0 : (Scene.fresh : Scene V).free_entities = [0] := by
    have : id 0 0 = 0 := by decide
    simp [Scene.fresh, this]
  obtain ⟨s, hs, hf⟩ := createAll_from ps cs 0 Scene.fresh h0
    (fun kp hkp => by simp [Scene.fresh] at hkp) (by omega)
  refine ⟨s, ?_, by simpa using hf⟩
  rw [hs, List.range_eq_range']

/-- C27 at a concrete input: three `add` calls with one, two and no
components return `id(0, 0)`, `id(1, 0)`, `id(2, 0)` and leave the free list `{3}`. -/
theorem fresh_allocation_sequential_witness :
    [[(1, 10)], [(1, 11), (2, 50)], ([] : List (Nat × Nat))].length ≤ 65535 ∧
    ∃ s, createAll 1024 [[(1, 10)], [(1, 11), (2, 50)], []] (Scene.fresh : Scene Nat)
        = some ((List.range 3).map (fun n => id n 0), s) ∧
      s.free_entities = [3] :=
  ⟨by decide, fresh_allocation_sequential 1024 [[(1, 10)], [(1, 11), (2, 50)], []]
    (by decide)⟩

theorem trace_inv (ps : Nat) (s : Scene V) (live returned : List Nat) (issued : Nat)
    (ht : Trace ps s live returned issued) :
    issued < 65535 → (∀ r ∈ returned, version r < 65535) →
    ∃ front, s.free_entities = front ++ [issued] ∧
      (∀ h ∈ live, h ∈ returned) ∧
      (live.map index ++ front.map index).Nodup ∧
      (∀ e ∈ front, index e < issued) ∧
      (∀ r ∈ returned, index r < issued ∧
        (∀ h ∈ live, index h = index r → version r ≤ version h) ∧
        (∀ e ∈ front, index e = index r → version r < version e)) ∧
      returned.Nodup := by
  induction ht with
  | fresh =>
    intro _ _
    refine ⟨[], ?_, ?_, ?_, ?_, ?_, ?_⟩
    · have : id 0 0 = 0 := by decide
      simp [Scene.fresh, this]
    · intro h hh; cases hh
    · simp
    · intro e he; cases he
    · intro r hr; cases hr
    · simp
  | add s live returned issued components e s1 _ hadd ih =>
    intro hiss hver
    have hiss0 : issued < 65535 := by
      split at hiss <;> omega
    obtain ⟨front, hfree, hlive, hnd, hfront, hret, hrnd⟩ :=
      ih hiss0 (fun r hr => hver r (List.mem_cons_of_mem _ hr))
    have halloc := add_allocate ps s s1 components e hadd
    rw [hfree] at halloc
    have hlive1 : ∀ h ∈ e :: live, h ∈ e :: returned := by
      intro h hh
      rcases List.mem_cons.1 hh with rfl | hh
      · exact List.mem_cons_self _ _
      · exact List.mem_cons_of_mem _ (hlive h hh)
    have hlt : ∀ h ∈ live, index h < issued := fun h hh => (hret h (hlive h hh)).1
    cases front with
    | nil =>
      rw [List.nil_append, allocate_single] at halloc
      have h1 := Option.some.inj halloc
      have he : issued = e := congrArg Prod.fst h1
      have hf : [(issued + 1) % 4294967296] = s1.free_entities := congrArg Prod.snd h1
      have hlen : ¬ s.free_entities.length > 1 := by rw [hfree]; simp
      rw [if_neg hlen] at hiss ⊢
      have hmod : (issued + 1) % 4294967296 = issued + 1 := Nat.mod_eq_of_lt (by omega)
      have hie : index e = issued := by rw [← he]; exact index_of_lt (by omega)
      refine ⟨[], (by rw [← hf, hmod]; rfl), hlive1, ?_, (fun x hx => by cases hx), ?_, ?_⟩
      · simp only [List.map_nil, List.append_nil, List.map_cons]
        simp only [List.map_nil, List.append_nil] at hnd
        refine List.nodup_cons.2 ⟨?_, hnd⟩
        intro hm
        obtain ⟨h, hh, hih⟩ := List.mem_map.1 hm
        have := hlt h hh
        omega
      · intro r hr
        rcases List.mem_cons.1 hr with rfl | hr
        · refine ⟨by omega, ?_, fun x hx => by cases hx⟩
          intro h hh hih
          rcases List.mem_cons.1 hh with rfl | hh
          · exact Nat.le_refl _
          · have := hlt h hh
            omega
        · have hr1 := (hret r hr).1
          refine ⟨by omega, ?_, fun x hx => by cases hx⟩
          intro h hh hih
          rcases List.mem_cons.1 hh with rfl | hh
          · omega
          · exact (hret r hr).2.1 h hh hih
      · refine List.nodup_cons.2 ⟨?_, hrnd⟩
        intro hm
        have := (hret e hm).1
        omega
    | cons f rest =>
      rw [List.cons_append, allocate_front] at halloc
      have h1 := Option.some.inj halloc
      have he : f = e := congrArg Prod.fst h1
      have hf : rest ++ [issued] = s1.free_entities := congrArg Prod.snd h1
      have hlen : s.free_entities.length > 1 := by rw [hfree]; simp
      rw [if_pos hlen] at hiss ⊢
      subst he
      have hperm : (index f :: (live.map index ++ rest.map index)).Perm
          (live.map index ++ index f :: rest.map index) := List.perm_middle.symm
      have hnd1 : (index f :: (live.map index ++ rest.map index)).Nodup := by
        rw [List.Perm.nodup_iff hperm]
        simpa using hnd
      have hnd2 := List.nodup_cons.1 hnd1
      have hfn : ∀ h ∈ live, index h ≠ index f := by
        intro h hh heq
        apply hnd2.1
        rw [← heq]
        exact List.mem_append_left _ (List.mem_map_of_mem _ hh)
      have hfr : ∀ x ∈ rest, index x ≠ index f := by
        intro x hx heq
        apply hnd2.1
        rw [← heq]
        exact List.mem_append_right _ (List.mem_map_of_mem _ hx)
      refine ⟨rest, hf.symm, hlive1, ?_, fun x hx => hfront x (List.mem_cons_of_mem _ hx), ?_,
        ?_⟩
      · simpa using hnd1
      · intro r hr
        rcases List.mem_cons.1 hr with rfl | hr
        · refine ⟨hfront r (List.mem_cons_self _ _), ?_, ?_⟩
          · intro h hh hih
            rcases List.mem_cons.1 hh with rfl | hh
            · exact Nat.le_refl _
            · exact absurd hih (hfn h hh)
          · intro x hx hix
            exact absurd hix (hfr x hx)
        · have hr3 := hret r hr
          refine ⟨hr3.1, ?_, ?_⟩
          · intro h hh hih
            rcases List.mem_cons.1 hh with hhf | hh
            · rw [hhf]
              rw [hhf] at hih
              exact Nat.le_of_lt (hr3.2.2 f (List.mem_cons_self _ _) hih)
            · exact hr3.2.1 h hh hih
          · intro x hx hix
            exact hr3.2.2 x (List.mem_cons_of_mem _ hx) hix
      · refine List.nodup_cons.2 ⟨?_, hrnd⟩
        intro hm
        have := (hret f hm).2.2 f (List.mem_cons_self _ _) rfl
        omega
  | remove s live returned issued h s1 _ hmem hrem ih =>
    intro hiss hver
    obtain ⟨front, hfree, hlive, hnd, hfront, hret, hrnd⟩ := ih hiss hver
    have hf := remove_free ps s s1 h hrem
    rw [hfree] at hf
    have hvh : version h < 65535 := hver h (hlive h hmem)
    have hi0 : index (id (index h) (version h + 1)) = index h := by
      rw [index_id]; exact Nat.mod_eq_of_lt (index_lt h)
    have hv0 : version (id (index h) (version h + 1)) = version h + 1 := by
      rw [version_id]; exact Nat.mod_eq_of_lt (by omega)
    have hsub : ∀ x ∈ live.erase h, x ∈ live := fun x hx => List.mem_of_mem_erase hx
    refine ⟨id (index h) (version h + 1) :: front, (by rw [hf]; rfl),
      (fun x hx => hlive x (hsub x hx)), ?_, ?_, ?_, hrnd⟩
    · have hp1 : (live.map index).Perm (index h :: (live.erase h).map index) := by
        have := (List.perm_cons_erase hmem).map index
        simpa using this
      have hp2 : (live.map index ++ front.map index).Perm
          ((live.erase h).map index ++ index h :: front.map index) := by
        refine (List.Perm.append_right _ hp1).trans ?_
        exact List.perm_middle.symm
      simp only [List.map_cons, hi0]
      exact (List.Perm.nodup_iff hp2).1 hnd
    · intro e he
      rcases List.mem_cons.1 he with rfl | he
      · rw [hi0]; exact (hret h (hlive h hmem)).1
      · exact hfront e he
    · intro r hr
      refine ⟨(hret r hr).1, fun x hx hix => (hret r hr).2.1 x (hsub x hx) hix, ?_⟩
      intro e he hie
      rcases List.mem_cons.1 he with rfl | he
      · rw [hi0] at hie
        have := (hret r hr).2.1 h hmem hie
        rw [hv0]
        omega
      · exact (hret r hr).2.2 e he hie

theorem reuseScene_trace :
    Trace 1024 (reuseScene 1024) [id 0 1, id 1 0] [id 0 1, id 1 0, id 0 0] 2 :=
  Trace.add (freedScene 1024) [id 1 0] [id 1 0, id 0 0] 2 [(1, 5)] (id 0 1)
    (reuseScene 1024)
    (Trace.remove (twoEntityScene 1024) [id 1 0, id 0 0] [id 1 0, id 0 0] 2 (id 0 0)
      (freedScene 1024)
      (Trace.add (oneEntityScene 1024) [id 0 0] [id 0 0] 1 [(1, 4)] (id 1 0)
        (twoEntityScene 1024)
        (Trace.add Scene.fresh [] [] 0 [(1, 3)] (id 0 0) (oneEntityScene 1024)
          Trace.fresh rfl)
        rfl)
      (by decide) rfl)
    rfl

/-- C28: in every scene reachable from a fresh scene by `add` calls and `remove`
calls on live handles, when fewer than 65535 fresh indices have been issued and
no handle returned has generation 65535: no two live handles share an index,
no handle in `free_entities` shares an index with a live handle, and the
handles returned by `add` are pairwise different. -/
theorem live_handles_unique (ps : Nat) (s : Scene V) (live returned : List Nat)
    (issued : Nat) (ht : Trace ps s live returned issued) (hiss : issued < 65535)
    (hver : ∀ r ∈ returned, version r < 65535) :
    (live.map index).Nodup ∧
    (∀ e ∈ s.free_entities, ∀ h ∈ live, index e ≠ index h) ∧
    returned.Nodup := by
  obtain ⟨front, hfree, hlive, hnd, _, hret, hrnd⟩ :=
    trace_inv ps s live returned issued ht hiss hver
  refine ⟨(List.nodup_append.1 hnd).1, ?_, hrnd⟩
  intro e he h hh heq
  rw [hfree] at he
  rcases List.mem_append.1 he with he | he
  · have hdis := (List.nodup_append.1 hnd).2.2
    exact hdis (List.mem_map_of_mem _ hh) (by rw [← heq]; exact List.mem_map_of_mem _ he)
  · rw [List.mem_singleton] at he
    have := (hret h (hlive h hh)).1
    rw [← heq, he, index_of_lt (by omega)] at this
    omega

/-- C28 at a concrete scene: after `a = add(3); b = add(4); remove(a); c = add(5)`
the handles `c = id(0, 1)` and `b = id(1, 0)` are live, `c` reuses the index of
the destroyed `a = id(0, 0)`, two fresh indices have been issued and the three
handles returned are pairwise different. -/
theorem live_handles_unique_witness :
    Trace 1024 (reuseScene 1024) [id 0 1, id 1 0] [id 0 1, id 1 0, id 0 0] 2 ∧
    2 < 65535 ∧
    (∀ r ∈ [id 0 1, id 1 0, id 0 0], version r < 65535) ∧
    index (id 0 1) = index (id 0 0) ∧
    (reuseScene 1024).free_entities = [2] ∧
    ([id 0 1, id 1 0].map index).Nodup ∧
    (∀ e ∈ (reuseScene 1024).free_entities, ∀ h ∈ [id 0 1, id 1 0], index e ≠ index h) ∧
    [id 0 1, id 1 0, id 0 0].Nodup :=
  ⟨reuseScene_trace, by decide, by decide, by decide, by decide,
    live_handles_unique 1024 (reuseScene 1024) [id 0 1, id 1 0] [id 0 1, id 1 0, id 0 0] 2
      reuseScene_trace (by decide) (by decide)⟩

end Fresa
